import Mathlib

/-!
Verification of the zeek-mcp query/filter/aggregation engine and its
threat-detection analytics, as a shallow embedding in Lean.

The embedding mirrors the TypeScript sources:
  * `src/query/engine.ts`   — `executeQuery`, `applyFilter`, `matchWildcard`,
    `matchCidr` (IPv4-only), `ipv4ToNum`;
  * `src/query/filters.ts`  — `matchCidr` (IPv6-aware), `matchCidr6`,
    `ipv6ToBytes`, `expandIpv6`, `matchWildcard`, `matchPartial`, `inRange`,
    `matchIp`;
  * `src/query/aggregation.ts` — `groupBy`, `sumField`, `avgField`,
    `countUnique`, `topN`, `getNestedValue`;
  * `src/analytics/entropy.ts` — `detectEncoding`;
  * `src/analytics/beaconing.ts` — `detectBeaconing`;
  * `src/analytics/anomaly.ts` — `detectPortScans`.

Host-language (JavaScript) semantics are modelled explicitly; the deliberate
idealizations, each noted at its definition site, are:
  * numbers are exact rationals extended with NaN and the signed infinities
    (no double rounding or overflow);
  * `Array.prototype.sort` is modelled as the stable insertion sort on the
    comparator predicate "comparator result not greater than zero"
    (ECMAScript leaves the order implementation-defined for inconsistent
    comparators; any stable comparison sort is a conforming determinization);
  * `String.prototype.localeCompare` is modelled as code-point lexicographic
    comparison (ECMA-262 only requires a consistent ordering);
  * string rendering of non-integer numbers, of exotic numeric strings under
    `ToNumber`, and Unicode case mapping are simplified; no claim below
    depends on them.
-/

namespace ZeekMCP

/-- JavaScript numbers, idealized as exact rationals extended with NaN and the
two signed infinities. Double-precision rounding and overflow are not
modelled; none of the properties proved below depend on them. -/
inductive JsNum where
  | nan
  | posInf
  | negInf
  | fin (q : ℚ)
deriving DecidableEq

/-- JavaScript addition on numbers (`a + b`). -/
def JsNum.add : JsNum → JsNum → JsNum
  | .nan, _ => .nan
  | _, .nan => .nan
  | .posInf, .negInf => .nan
  | .negInf, .posInf => .nan
  | .posInf, _ => .posInf
  | _, .posInf => .posInf
  | .negInf, _ => .negInf
  | _, .negInf => .negInf
  | .fin a, .fin b => .fin (a + b)

/-- JavaScript unary negation on numbers. -/
def JsNum.neg : JsNum → JsNum
  | .nan => .nan
  | .posInf => .negInf
  | .negInf => .posInf
  | .fin a => .fin (-a)

/-- JavaScript subtraction on numbers (`a - b`). -/
def JsNum.sub (a b : JsNum) : JsNum := a.add b.neg

/-- JavaScript multiplication on numbers (`a * b`); infinity times zero is NaN. -/
def JsNum.mul : JsNum → JsNum → JsNum
  | .nan, _ => .nan
  | _, .nan => .nan
  | .posInf, .posInf => .posInf
  | .posInf, .negInf => .negInf
  | .negInf, .posInf => .negInf
  | .negInf, .negInf => .posInf
  | .posInf, .fin b => if b = 0 then .nan else if 0 < b then .posInf else .negInf
  | .negInf, .fin b => if b = 0 then .nan else if 0 < b then .negInf else .posInf
  | .fin a, .posInf => if a = 0 then .nan else if 0 < a then .posInf else .negInf
  | .fin a, .negInf => if a = 0 then .nan else if 0 < a then .negInf else .posInf
  | .fin a, .fin b => .fin (a * b)

/-- Division of a JavaScript number by a positive integer count (the only
division the embedded code performs). -/
def JsNum.divNat : JsNum → Nat → JsNum
  | .nan, _ => .nan
  | .posInf, _ => .posInf
  | .negInf, _ => .negInf
  | .fin a, n => .fin (a / (n : ℚ))

/-- JavaScript strict comparison `a < b` on numbers: false whenever either
side is NaN. -/
def JsNum.ltb : JsNum → JsNum → Bool
  | .nan, _ => false
  | _, .nan => false
  | .posInf, _ => false
  | _, .posInf => true
  | .negInf, .negInf => false
  | .negInf, _ => true
  | _, .negInf => false
  | .fin a, .fin b => decide (a < b)

/-- JavaScript comparison `a <= b` on numbers: false whenever either side is
NaN. -/
def JsNum.leb : JsNum → JsNum → Bool
  | .nan, _ => false
  | _, .nan => false
  | _, .posInf => true
  | .posInf, _ => false
  | .negInf, _ => true
  | _, .negInf => false
  | .fin a, .fin b => decide (a ≤ b)

/-- JavaScript strict equality `a === b` on numbers: NaN is not equal to NaN. -/
def JsNum.eqb : JsNum → JsNum → Bool
  | .nan, _ => false
  | _, .nan => false
  | .posInf, .posInf => true
  | .negInf, .negInf => true
  | .fin a, .fin b => decide (a = b)
  | _, _ => false

/-- Is the number strictly greater than zero? (`x > 0`, false for NaN).
Used to interpret the sign of a JavaScript sort comparator result. -/
def JsNum.posb : JsNum → Bool
  | .posInf => true
  | .fin a => decide (0 < a)
  | _ => false

/-- A scalar array element. Zeek log vectors hold strings and numbers
(e.g. `answers: string[]`, `TTLs: number[]`), per the record model all
sequences are sequences of scalars, so array nesting is not modelled. -/
inductive SValue where
  | num (n : JsNum)
  | str (s : String)
  | boolV (b : Bool)
  | nullV
deriving DecidableEq

/-- JavaScript values as they occur in parsed Zeek log records: numbers,
strings, booleans, null, and arrays of scalars. `undefined` is represented
as `Option.none` at the use sites. Plain nested objects do not occur in
parsed Zeek records (the record itself is the only mapping layer), so they
are not a `Value` constructor. -/
inductive Value where
  | num (n : JsNum)
  | str (s : String)
  | boolV (b : Bool)
  | nullV
  | arr (vs : List SValue)
deriving DecidableEq

/-- JavaScript truthiness of a value (`!x` is the negation of this). -/
def Value.truthy : Value → Bool
  | .num .nan => false
  | .num (.fin q) => decide (q ≠ 0)
  | .num _ => true
  | .str s => decide (s ≠ "")
  | .boolV b => b
  | .nullV => false
  | .arr _ => true

/-! ### Character-list utilities

JavaScript string primitives (`split`, `includes`, `padStart`, `parseInt`)
are modelled over `List Char`. -/

/-- Does the character list contain the character `c`? (`s.includes(c)` for a
one-character search string). -/
def hasChar (c : Char) (l : List Char) : Bool := l.any (fun x => x == c)

/-- `String.prototype.split` with a one-character separator, over character
lists. Mirrors JavaScript: the result is never empty, and splitting the
empty string yields `[[]]`. -/
def splitOnChar (c : Char) : List Char → List (List Char)
  | [] => [[]]
  | x :: xs =>
    match splitOnChar c xs with
    | [] => [[]]
    | g :: gs => if x = c then [] :: g :: gs else (x :: g) :: gs

/-- `String.prototype.split` with the two-character separator `"::"`, over
character lists, matching non-overlapping occurrences left to right. -/
def splitColonColon : List Char → List (List Char)
  | ':' :: ':' :: rest => [] :: splitColonColon rest
  | c :: rest =>
    match splitColonColon rest with
    | [] => [[c]]
    | g :: gs => (c :: g) :: gs
  | [] => [[]]

/-- Does the character list contain the substring `"::"`? -/
def hasColonColon : List Char → Bool
  | ':' :: ':' :: _ => true
  | _ :: rest => hasColonColon rest
  | [] => false

/-- Is `c` a decimal digit character? -/
def isDigitChar (c : Char) : Bool := c.isDigit

/-- Is `c` a digit of the given radix (only radixes 10 and 16 are used)? -/
def isRadixDigit (radix : Nat) (c : Char) : Bool :=
  if radix = 16 then
    c.isDigit || ('a' ≤ c && c ≤ 'f') || ('A' ≤ c && c ≤ 'F')
  else
    c.isDigit

/-- Numeric value of a digit character (decimal or hexadecimal). -/
def digitVal (c : Char) : Nat :=
  if c.isDigit then c.toNat - 48
  else if 'a' ≤ c && c ≤ 'f' then c.toNat - 87
  else c.toNat - 55

/-- Value of a list of digit characters in the given radix. -/
def digitsVal (radix : Nat) (l : List Char) : Nat :=
  l.foldl (fun a c => a * radix + digitVal c) 0

/-- For radix 16, `parseInt` strips an optional `0x`/`0X` marker. -/
def stripHexMark : List Char → List Char
  | '0' :: 'x' :: r => r
  | '0' :: 'X' :: r => r
  | l => l

/-- The digit-run part of `parseInt`: after the optional marker, parse the
longest prefix of radix digits; no digits at all is NaN (`none`). -/
def parseIntCore (radix : Nat) (l : List Char) : Option Int :=
  let l3 := if radix = 16 then stripHexMark l else l
  let ds := l3.takeWhile (isRadixDigit radix)
  if ds.isEmpty then none else some ((digitsVal radix ds : Nat) : Int)

/-- The optional sign of `parseInt`. -/
def parseIntSigned (radix : Nat) (l : List Char) : Option Int :=
  match l with
  | [] => parseIntCore radix []
  | c :: r =>
    if c = '-' then (parseIntCore radix r).map (fun n => -n)
    else if c = '+' then parseIntCore radix r
    else parseIntCore radix (c :: r)

/-- JavaScript `parseInt(s, radix)` for radix 10 or 16: skip leading
whitespace, take an optional sign, for radix 16 strip an optional `0x`/`0X`
marker, then parse the longest prefix of radix digits; `none` models NaN
(no digits at all). -/
def parseIntJs (radix : Nat) (l : List Char) : Option Int :=
  parseIntSigned radix (l.dropWhile Char.isWhitespace)

/-- Little-endian decimal digits of a natural number (auxiliary for
rendering numbers as strings). -/
def natDigitsRevGo (fuel n : Nat) : List Char :=
  match fuel with
  | 0 => []
  | fuel + 1 =>
    if n < 10 then [Char.ofNat (48 + n)]
    else Char.ofNat (48 + n % 10) :: natDigitsRevGo fuel (n / 10)

/-- Little-endian decimal digits of a natural number (`n + 1` halvings of
fuel always suffice, as the argument strictly shrinks below 10). -/
def natDigitsRev (n : Nat) : List Char := natDigitsRevGo (n + 1) n

/-- Decimal rendering of a natural number. -/
def natToStr (n : Nat) : String := ⟨(natDigitsRev n).reverse⟩

/-- Decimal rendering of an integer. -/
def intToStr (i : Int) : String :=
  if i < 0 then "-" ++ natToStr i.natAbs else natToStr i.natAbs

/-- JavaScript `String(n)` for a number. Integers render in decimal and the
specials render as `NaN` / `Infinity` / `-Infinity`, exactly as in
JavaScript; non-integer rationals use a fraction notation that stands in for
JavaScript's shortest-round-trip decimal (no claim below depends on the
rendering of a non-integer). -/
def numToStr : JsNum → String
  | .nan => "NaN"
  | .posInf => "Infinity"
  | .negInf => "-Infinity"
  | .fin q => if q.den = 1 then intToStr q.num else intToStr q.num ++ "/" ++ natToStr q.den

/-- JavaScript `String(v)` for a scalar value. -/
def sValToStr : SValue → String
  | .num n => numToStr n
  | .str s => s
  | .boolV b => if b then "true" else "false"
  | .nullV => "null"

/-- Rendering of one array element inside `Array.prototype.join`: null
renders as the empty string. -/
def elemStr : SValue → String
  | .nullV => ""
  | v => sValToStr v

/-- `Array.prototype.join(",")` over the element list. -/
def arrJoin : List SValue → String
  | [] => ""
  | [v] => elemStr v
  | v :: rest => elemStr v ++ "," ++ arrJoin rest

/-- JavaScript `String(v)` for a defined value. Arrays render as their
elements joined by commas. -/
def valToStr : Value → String
  | .num n => numToStr n
  | .str s => s
  | .boolV b => if b then "true" else "false"
  | .nullV => "null"
  | .arr vs => arrJoin vs

/-- JavaScript `String(x)` where `x` may be undefined (`none`). -/
def optValToStr : Option Value → String
  | none => "undefined"
  | some v => valToStr v

/-- JavaScript `String(x ?? "")`: nullish values coerce to the empty string
first. -/
def strCoalesce : Option Value → String
  | none => ""
  | some .nullV => ""
  | some v => valToStr v

/-- `ToNumber` coercion of a trimmed decimal string: the empty string is 0,
an optional sign followed only by decimal digits is the signed value, and
anything else is NaN. (JavaScript additionally accepts fractional,
exponential, hexadecimal and `Infinity` literals; no claim below reaches
those forms.) -/
def strToNum (s : String) : JsNum :=
  let l := s.toList.dropWhile Char.isWhitespace |>.reverse.dropWhile Char.isWhitespace |>.reverse
  match l with
  | [] => .fin 0
  | _ =>
    let sl : Int × List Char :=
      match l with
      | '-' :: r => (-1, r)
      | '+' :: r => (1, r)
      | _ => (1, l)
    if sl.2 ≠ [] && sl.2.all isDigitChar then
      .fin ((sl.1 * (digitsVal 10 sl.2 : Int) : Int) : ℚ)
    else .nan

/-- JavaScript `ToNumber` coercion of a value. Arrays coerce through
`ToPrimitive`; that chain is collapsed to NaN here (with the empty array's
0 not modelled) — the claims below only coerce values that are already
numbers. -/
def toNumber : Value → JsNum
  | .num n => n
  | .nullV => .fin 0
  | .boolV b => .fin (if b then 1 else 0)
  | .str s => strToNum s
  | .arr _ => .nan

/-! ### Records and field resolution (`src/query/aggregation.ts`) -/

/-- A parsed Zeek log record (`ZeekRecord`): a field-name/value mapping,
modelled as an association list in which the first binding of a key is the
one that counts (a JavaScript object has at most one binding per key). -/
abbrev ZRecord := List (String × Value)

/-- JavaScript property access `record[field]`; also decides `field in
record` (`isSome`). -/
def getField (r : ZRecord) (f : String) : Option Value :=
  match r.find? (fun p => p.1 == f) with
  | some p => some p.2
  | none => none

/-- Scalar-to-value injection (an array element viewed as a value). -/
def SValue.toValue : SValue → Value
  | .num n => .num n
  | .str s => .str s
  | .boolV b => .boolV b
  | .nullV => .nullV

/-- Array member access `arr[seg]` during a dotted-path walk: a canonical
decimal index string selects the element, `"length"` gives the length, any
other property is undefined. -/
def arrIndex (vs : List SValue) (seg : List Char) : Option Value :=
  if seg = "length".toList then some (.num (.fin (vs.length : ℚ)))
  else
    match seg with
    | [] => none
    | c :: rest =>
      if (c :: rest).all isDigitChar && (c ≠ '0' || rest = []) then
        (vs.get? (digitsVal 10 (c :: rest))).map SValue.toValue
      else none

/-- The walk part of `getNestedValue`: step through the remaining path
segments; null, undefined, and non-object values stop the walk with
undefined. Arrays are the only non-record objects a walk can enter. -/
def walkSegs : Option Value → List (List Char) → Option Value
  | cur, [] => cur
  | none, _ :: _ => none
  | some v, seg :: rest =>
    match v with
    | .arr vs => walkSegs (arrIndex vs seg) rest
    | _ => none

/-- `getNestedValue(record, field)`: a literal key takes priority (Zeek
compound names such as `"id.orig_h"`); otherwise the field splits on `.`
and the segments are walked. -/
def getNestedValue (r : ZRecord) (f : String) : Option Value :=
  match getField r f with
  | some v => some v
  | none =>
    match splitOnChar '.' f.toList with
    | [] => none
    | seg :: rest => walkSegs (getField r ⟨seg⟩) rest

/-! ### CIDR and wildcard matching

Two parallel implementations exist in the source: `src/query/engine.ts`
(IPv4 only) and `src/query/filters.ts` (IPv4 and IPv6). Both are embedded;
shared helpers are factored where the source texts coincide. -/

/-- `ipv4ToNum`: split on `.`, require exactly 4 parts, each `parseInt`-ing
to an octet in `[0, 255]`; fold the accumulator. The JavaScript original
accumulates with `(num << 8) | octet` on 32-bit integers and reinterprets
with `>>> 0` at the end; with four octets in range the result is exactly
the base-256 value, which is what the fold computes. -/
def ipv4Fold : List (List Char) → Nat → Option Nat
  | [], acc => some acc
  | p :: ps, acc =>
    (parseIntJs 10 p).bind (fun o =>
      if o < 0 || 255 < o then none else ipv4Fold ps (acc * 256 + o.toNat))

/-- `ipv4ToNum(ip)` over the character list of the address. -/
def ipv4ToNum (ip : List Char) : Option Nat :=
  let parts := splitOnChar '.' ip
  if parts.length ≠ 4 then none else ipv4Fold parts 0

/-- The shift count of `~0 << (32 - prefix)` under JavaScript shift
semantics: the count is taken modulo 32 (`ToUint32(x) & 31`), and a NaN
prefix gives count 0. -/
def shift32 : Option Int → Nat
  | none => 0
  | some p => ((32 - p) % 32).toNat

/-- The 32-bit mask `prefix === 0 ? 0 : ~0 << (32 - prefix)`, as the
unsigned bit pattern. -/
def maskFor (p : Option Int) : Nat :=
  if p = some 0 then 0 else 2 ^ 32 - 2 ^ shift32 p

/-- `matchCidr` from `src/query/engine.ts` (IPv4 only): no `/` means exact
string equality; otherwise split into network and prefix, parse both
addresses as IPv4, and compare under the mask. Signed/unsigned
reinterpretation by `&` does not affect the equality, so the comparison is
on unsigned bit patterns. -/
def matchCidrEngine (ip cidr : String) : Bool :=
  let cl := cidr.toList
  if ¬ hasChar '/' cl then ip == cidr
  else
    let parts := splitOnChar '/' cl
    let network := parts.getD 0 []
    let pfx := parseIntJs 10 (parts.getD 1 [])
    match ipv4ToNum ip.toList, ipv4ToNum network with
    | some ipN, some netN =>
      let mask := maskFor pfx
      (ipN &&& mask) == (netN &&& mask)
    | _, _ => false

/-- `expandIpv6`: expand a single `::` elision to the missing all-zero
groups and left-pad every group to 4 characters; an address without `::`
is returned unchanged. -/
def expandIpv6 (l : List Char) : Option (List Char) :=
  if hasColonColon l then
    let parts := splitColonColon l
    let left := parts.getD 0 []
    let right := parts.getD 1 []
    let leftGroups := if left = [] then [] else splitOnChar ':' left
    let rightGroups := if right = [] then [] else splitOnChar ':' right
    let missing : Int := 8 - leftGroups.length - rightGroups.length
    if missing < 0 then none
    else
      let allGroups := leftGroups ++ List.replicate missing.toNat ['0', '0', '0', '0'] ++ rightGroups
      some (List.intercalate [':'] (allGroups.map (fun g => List.replicate (4 - g.length) '0' ++ g)))
  else some l

/-- JavaScript `ToUint32` of an exact integer. -/
def toUint32 (v : Int) : Nat := (v % (2 ^ 32 : Int)).toNat

/-- Bytes of one expanded IPv6 group: `parseInt(group, 16)` followed by
`(val >> 8) & 0xff` and `val & 0xff` (32-bit semantics). -/
def groupToBytes : List (List Char) → Option (List Nat)
  | [] => some []
  | g :: gs =>
    match parseIntJs 16 g, groupToBytes gs with
    | some v, some rest => some ((toUint32 v / 256 % 256) :: (toUint32 v % 256) :: rest)
    | _, _ => none

/-- `ipv6ToBytes`: expand, split on `:`, require 8 groups, convert each
group to two bytes. -/
def ipv6ToBytes (l : List Char) : Option (List Nat) :=
  match expandIpv6 l with
  | none => none
  | some e =>
    let groups := splitOnChar ':' e
    if groups.length ≠ 8 then none else groupToBytes groups

/-- The byte-comparison loop of `matchCidr6` over the zipped byte pairs,
carrying the remaining prefix length. A NaN prefix (`none`) fails both
`remaining >= 8` and `remaining > 0` and breaks immediately, returning
true. For `0 < remaining < 8` the partial-byte mask is
`~0 << (8 - remaining) & 0xff = 256 - 2^(8-remaining)`. -/
def cidrLoop : Option Int → List (Nat × Nat) → Bool
  | _, [] => true
  | none, _ :: _ => true
  | some r, (a, b) :: rest =>
    if 8 ≤ r then (a == b) && cidrLoop (some (r - 8)) rest
    else if 0 < r then
      let mask := 256 - 2 ^ (8 - r).toNat
      (a &&& mask) == (b &&& mask)
    else true

/-- `matchCidr6(ip, network, prefix)`: byte-by-byte comparison with
partial-byte masking at the prefix boundary; malformed addresses give
false. -/
def matchCidr6 (ip network : String) (pfx : Option Int) : Bool :=
  match ipv6ToBytes ip.toList, ipv6ToBytes network.toList with
  | some a, some b => cidrLoop pfx (a.zip b)
  | _, _ => false

/-- `matchCidr` from `src/query/filters.ts`: like the engine version, but
any `:` in the address or network routes to the IPv6 path. -/
def matchCidrFilters (ip cidr : String) : Bool :=
  let cl := cidr.toList
  if ¬ hasChar '/' cl then ip == cidr
  else
    let parts := splitOnChar '/' cl
    let network := parts.getD 0 []
    let pfx := parseIntJs 10 (parts.getD 1 [])
    if hasChar ':' ip.toList || hasChar ':' network then
      matchCidr6 ip ⟨network⟩ pfx
    else
      match ipv4ToNum ip.toList, ipv4ToNum network with
      | some ipN, some netN =>
        let mask := maskFor pfx
        (ipN &&& mask) == (netN &&& mask)
      | _, _ => false

/-- Lower-casing of a character list, modelling the regex `i` flag and
`toLowerCase` by the simple character mapping (full Unicode case mapping is
not modelled; the claims below never depend on it). -/
def lowerL (l : List Char) : List Char := l.map Char.toLower

/-- Substring test `hay.includes(needle)` on character lists. -/
def hasSub (needle : List Char) : List Char → Bool
  | [] => needle.isEmpty
  | c :: t => needle.isPrefixOf (c :: t) || hasSub needle t

/-- The suffix of `hay` after the first occurrence of `needle`, if any
(auxiliary for the wildcard matcher). -/
def findAfter (needle : List Char) : List Char → Option (List Char)
  | [] => if needle.isEmpty then some [] else none
  | c :: t =>
    if needle.isPrefixOf (c :: t) then some ((c :: t).drop needle.length)
    else findAfter needle t

/-- Matching of the wildcard segments after the first one: the final
segment must be a suffix, intermediate segments are consumed greedily left
to right (equivalent to the backtracking regex `seg0.*seg1.*…segN`). -/
def wildTail (v : List Char) : List (List Char) → Bool
  | [] => true
  | [s] => s.isSuffixOf v
  | s :: rest =>
    match findAfter s v with
    | some v2 => wildTail v2 rest
    | none => false

/-- `matchWildcard(value, pattern)` (identical in both source modules): a
pattern without `*` is exact case-insensitive comparison; otherwise each
`*` becomes "any characters" in a case-insensitive anchored match with all
other characters literal. -/
def matchWildcard (value pattern : String) : Bool :=
  if ¬ hasChar '*' pattern.toList then lowerL value.toList == lowerL pattern.toList
  else
    match splitOnChar '*' (lowerL pattern.toList) with
    | [] => true
    | s0 :: rest =>
      s0.isPrefixOf (lowerL value.toList) && wildTail ((lowerL value.toList).drop s0.length) rest

/-- `matchPartial(value, search)`: case-insensitive substring test. -/
def matchPartial (value search : String) : Bool :=
  hasSub (lowerL search.toList) (lowerL value.toList)

/-- `inRange(value, min?, max?)` from `src/query/filters.ts`. -/
def inRange (value : Option JsNum) (lo hi : Option JsNum) : Bool :=
  match value with
  | none => false
  | some v =>
    match lo with
    | some m => if v.ltb m then false else
      match hi with
      | some M => ¬ M.ltb v
      | none => true
    | none =>
      match hi with
      | some M => ¬ M.ltb v
      | none => true

/-- `matchIp(recordIp, filterIp)` from `src/query/filters.ts`. -/
def matchIp (recordIp filterIp : String) : Bool :=
  if hasChar '/' filterIp.toList then matchCidrFilters recordIp filterIp
  else recordIp == filterIp

/-! ### Filter evaluation and query execution (`src/query/engine.ts`) -/

/-- Filter operators of `FilterDef.op` (`in` and `exists` renamed to avoid
keywords). The TypeScript union admits exactly these operators, so the
switch's permissive `default` arm is unreachable and not modelled. -/
inductive FilterOp where
  | eq | neq | gt | gte | lt | lte | containsOp | wildcard | cidr | inOp | existsOp
deriving DecidableEq

/-- A filter predicate `{ field, op, value }`. -/
structure FilterDef where
  field : String
  op : FilterOp
  value : Value

/-- JavaScript strict equality `===` between two defined values. Arrays
compare by reference, so two array values arriving from distinct
expressions are never strictly equal. -/
def jsStrictEq : Value → Value → Bool
  | .num a, .num b => a.eqb b
  | .str a, .str b => a == b
  | .boolV a, .boolV b => a == b
  | .nullV, .nullV => true
  | .arr _, .arr _ => false
  | _, _ => false

/-- Strict equality between a possibly-undefined resolved value and the
filter value. -/
def jsStrictEqOpt (ov : Option Value) (w : Value) : Bool :=
  match ov with
  | none => false
  | some v => jsStrictEq v w

/-- `Array.prototype.includes` membership (SameValueZero: NaN equals NaN),
modelled by structural equality. -/
def svzMem (ov : Option Value) (xs : List SValue) : Bool :=
  match ov with
  | some (.num n) => xs.any (fun x => x = .num n)
  | some (.str s) => xs.any (fun x => x = .str s)
  | some (.boolV b) => xs.any (fun x => x = .boolV b)
  | some .nullV => xs.any (fun x => x = .nullV)
  | _ => false

/-- `applyFilter(record, filter)` from `src/query/engine.ts`. The numeric
comparison operators read the filter value through `ToNumber`, matching the
JavaScript relational coercion when the resolved side is known to be a
number. -/
def applyFilter (r : ZRecord) (f : FilterDef) : Bool :=
  let value := getNestedValue r f.field
  match f.op with
  | .eq => jsStrictEqOpt value f.value || optValToStr value == valToStr f.value
  | .neq => ¬ jsStrictEqOpt value f.value && ¬ (optValToStr value == valToStr f.value)
  | .gt =>
    match value with
    | some (.num a) => (toNumber f.value).ltb a
    | _ => false
  | .gte =>
    match value with
    | some (.num a) => (toNumber f.value).leb a
    | _ => false
  | .lt =>
    match value with
    | some (.num a) => a.ltb (toNumber f.value)
    | _ => false
  | .lte =>
    match value with
    | some (.num a) => a.leb (toNumber f.value)
    | _ => false
  | .containsOp =>
    match value with
    | some (.str s) => hasSub (lowerL (valToStr f.value).toList) (lowerL s.toList)
    | some (.arr vs) => vs.any (fun v => hasSub (lowerL (valToStr f.value).toList) (lowerL (sValToStr v).toList))
    | _ => false
  | .wildcard => matchWildcard (strCoalesce value) (valToStr f.value)
  | .cidr => matchCidrEngine (strCoalesce value) (valToStr f.value)
  | .inOp =>
    match f.value with
    | .arr xs => svzMem value xs || xs.any (fun x => sValToStr x == optValToStr value)
    | _ => false
  | .existsOp =>
    match value with
    | none => false
    | some .nullV => false
    | some _ => true

/-- Sort order of `QueryOptions.sortOrder`. -/
inductive SortOrder where
  | asc | desc
deriving DecidableEq

/-- `QueryOptions` as consumed by the query executor. The log type and time
window select the input records in the excluded log-reading collaborator
(`queryLog`), so the executor here receives the record list directly. An
absent `filters` array behaves exactly like an empty one and is modelled as
`[]`. -/
structure QueryOpts where
  filters : List FilterDef := []
  sortBy : Option String := none
  sortOrder : Option SortOrder := none
  limit : Option Nat := none

/-- The sort comparator of `executeQuery`, before the direction is applied:
undefined on either side decides immediately (and is returned *without*
applying the direction); two numbers compare by subtraction; otherwise the
string coercions compare lexicographically (the `localeCompare` model). -/
def strCmp : List Char → List Char → Int
  | [], [] => 0
  | [], _ :: _ => -1
  | _ :: _, [] => 1
  | a :: as, b :: bs => if a < b then -1 else if b < a then 1 else strCmp as bs

/-- The full comparator passed to `filtered.sort`, as a JavaScript number:
the undefined cases return ±1/0 directly; the both-present comparison is
negated for descending order. -/
def recCmp (field : String) (ord : SortOrder) (a b : ZRecord) : JsNum :=
  match getNestedValue a field, getNestedValue b field with
  | none, none => .fin 0
  | none, some _ => .fin 1
  | some _, none => .fin (-1)
  | some x, some y =>
    let c : JsNum :=
      match x, y with
      | .num p, .num q => p.sub q
      | _, _ => .fin (strCmp (valToStr x).toList (valToStr y).toList)
    match ord with
    | .desc => c.neg
    | .asc => c

/-- Stable insertion of an element into a list under the predicate "may
precede": `x` goes before the first `b` it may precede. -/
def insertSorted (le : α → α → Bool) (a : α) : List α → List α
  | [] => [a]
  | b :: bs => if le a b then a :: b :: bs else b :: insertSorted le a bs

/-- Stable comparison sort: the model of `Array.prototype.sort`. An element
`x` may precede `y` when the comparator does not make `x` strictly greater
(`comparator(x, y) > 0` is false, which also covers a NaN comparator
result). ECMAScript leaves the order implementation-defined when the
comparator is inconsistent; any stable comparison sort is a conforming
determinization. -/
def sortJs (le : α → α → Bool) : List α → List α
  | [] => []
  | x :: xs => insertSorted le x (sortJs le xs)

/-- `executeQuery(config, options)` after the external `queryLog` call:
filter with AND semantics, sort by the resolved sort field (default `ts`,
default descending), and truncate to `min(options.limit ?? 100,
config.maxResults)`. `maxResults` is validated to be a positive integer by
`getConfig`, and every tool schema constrains `limit` to a positive
integer, so both are naturals here. -/
def executeQuery (maxResults : Nat) (opts : QueryOpts) (records : List ZRecord) : List ZRecord :=
  let filtered :=
    if opts.filters.length > 0 then
      records.filter (fun r => opts.filters.all (fun f => applyFilter r f))
    else records
  let sortField := opts.sortBy.getD "ts"
  let ord := opts.sortOrder.getD .desc
  let sorted := sortJs (fun a b => ¬ (recCmp sortField ord a b).posb) filtered
  sorted.take (min (opts.limit.getD 100) maxResults)

/-! ### Aggregation (`src/query/aggregation.ts`) -/

/-- One bucket of a `groupBy` result. -/
structure GroupResult where
  key : String
  count : Nat
  percentage : ℚ
deriving DecidableEq

/-- An aggregation result: buckets plus the full input size. -/
structure AggregationResult where
  field : String
  groups : List GroupResult
  total : Nat
deriving DecidableEq

/-- Increment the count of a key in an insertion-ordered association list
(the model of `Map.set(k, (m.get(k) ?? 0) + 1)`; JavaScript `Map` iterates
in insertion order). -/
def bumpKey (k : String) : List (String × Nat) → List (String × Nat)
  | [] => [(k, 1)]
  | (k', c) :: rest => if k' = k then (k', c + 1) :: rest else (k', c) :: bumpKey k rest

/-- The grouping key of a record for `groupBy`: the string coercion of a
defined, non-null value, else the literal bucket `"(unset)"`. -/
def groupKey (v : Option Value) : String :=
  match v with
  | none => "(unset)"
  | some .nullV => "(unset)"
  | some v => valToStr v

/-- The counting pass of `groupBy`. -/
def groupCounts (records : List ZRecord) (field : String) : List (String × Nat) :=
  records.foldl (fun acc r => bumpKey (groupKey (getNestedValue r field)) acc) []

/-- JavaScript `Math.round` (half away from zero is half up). -/
def jsRound (q : ℚ) : Int := ⌊q + 1 / 2⌋

/-- The comparator predicate for sorting count pairs descending
(`(a, b) => b[1] - a[1]`). -/
def countDescLe (a b : String × Nat) : Bool := ¬ (JsNum.fin ((b.2 : ℚ) - (a.2 : ℚ))).posb

/-- `groupBy(records, field, limit = 20)`. -/
def groupBy (records : List ZRecord) (field : String) (limit : Nat := 20) : AggregationResult :=
  let counts := groupCounts records field
  let sorted := (sortJs countDescLe counts).take limit
  let total := records.length
  { field := field
    total := total
    groups := sorted.map (fun kc =>
      { key := kc.1
        count := kc.2
        percentage := if total > 0 then (jsRound ((kc.2 : ℚ) / (total : ℚ) * 10000) : ℚ) / 100 else 0 }) }

/-- Does this resolved value pass the numeric guard of `sumField` /
`avgField`? The source checks `typeof value === "number" && !isNaN(value)`
— note that the infinities pass this guard. -/
def numGuard : Option Value → Option JsNum
  | some (.num .nan) => none
  | some (.num n) => some n
  | _ => none

/-- `sumField(records, field)`: add every resolved value that is a
non-NaN number. -/
def sumField (records : List ZRecord) (field : String) : JsNum :=
  records.foldl (fun total r =>
    match numGuard (getNestedValue r field) with
    | some n => total.add n
    | none => total) (.fin 0)

/-- The number of records whose resolved value passes the numeric guard. -/
def numCount (records : List ZRecord) (field : String) : Nat :=
  records.foldl (fun c r =>
    match numGuard (getNestedValue r field) with
    | some _ => c + 1
    | none => c) 0

/-- `avgField(records, field)`: the guarded sum over the guarded count, or
0 when no record passes the guard. -/
def avgField (records : List ZRecord) (field : String) : JsNum :=
  let k := numCount records field
  if k > 0 then (sumField records field).divNat k else .fin 0

/-- `countUnique(records, field)`: the number of distinct string coercions
of defined, non-null resolved values. -/
def countUnique (records : List ZRecord) (field : String) : Nat :=
  (records.foldl (fun acc r =>
    match getNestedValue r field with
    | none => acc
    | some .nullV => acc
    | some v => if valToStr v ∈ acc then acc else acc ++ [valToStr v]) []).length

/-- The counting pass of `topN` (defined, non-null values only). -/
def topNCounts (records : List ZRecord) (field : String) : List (String × Nat) :=
  records.foldl (fun acc r =>
    match getNestedValue r field with
    | none => acc
    | some .nullV => acc
    | some v => bumpKey (valToStr v) acc) []

/-- `topN(records, field, n = 10)`. -/
def topN (records : List ZRecord) (field : String) (n : Nat := 10) : List (String × Nat) :=
  (sortJs countDescLe (topNCounts records field)).take n

/-! ### Encoding detection (`src/analytics/entropy.ts`) -/

/-- A character of the regex class `[0-9a-fA-F]`. -/
def isHexDigitJs (c : Char) : Bool := c.isDigit || ('a' ≤ c && c ≤ 'f') || ('A' ≤ c && c ≤ 'F')

/-- A character of the base64 alphabet `[A-Za-z0-9+/]`. -/
def isB64Char (c : Char) : Bool := c.isAlphanum || c == '+' || c == '/'

/-- Strip up to two trailing `=` characters (the `={0,2}$` tail of the
base64 regex). -/
def stripTrailingEq (l : List Char) : List Char :=
  match l.reverse with
  | '=' :: '=' :: rest => rest.reverse
  | '=' :: rest => rest.reverse
  | _ => l

/-- The test of the anchored regex `^[A-Za-z0-9+/]+={0,2}$`. -/
def matchB64 (l : List Char) : Bool :=
  let core := stripTrailingEq l
  ¬ core.isEmpty && core.all isB64Char

/-- The anchored regex `^[0-9a-fA-F]+$`. -/
def matchHex (l : List Char) : Bool := ¬ l.isEmpty && l.all isHexDigitJs

/-- `detectEncoding(input)`: the hex test (even length, longer than 10)
comes first, the base64 test (longer than 10) second, otherwise null. -/
def detectEncoding (s : String) : Option String :=
  let l := s.toList
  if matchHex l && l.length > 10 && l.length % 2 == 0 then some "hex"
  else if matchB64 l && l.length > 10 then some "base64"
  else none

/-! ### Beacon detection (`src/analytics/beaconing.ts`)

The candidate's derived display fields are kept exact: the source stores
`Math.round(avgInterval*100)/100`, the rounded square root of the variance,
the rounded jitter, and a score built from the jitter. The square root is
irrational, so the candidate here carries the exact mean interval, the
exact variance, and the exact average byte count instead, and the final
ranking by score (a permutation of the candidate list) is omitted; every
claim proved below is a membership statement, invariant under the ranking
and expressible through these exact fields. -/

/-- A beaconing candidate (see the note above on the exact fields). -/
structure BeaconCandidate where
  srcIp : String
  dstIp : String
  dstPort : Option Int
  connectionCount : Nat
  avgIntervalExact : JsNum
  varianceExact : JsNum
  avgBytesExact : JsNum
deriving DecidableEq

/-- Append a timestamp to a key's list in an insertion-ordered association
list (the model of `pairs.get(key)!.push(ts)`). -/
def pushTs (k : String) (t : JsNum) : List (String × List JsNum) → List (String × List JsNum)
  | [] => [(k, [t])]
  | (k', ts) :: rest => if k' = k then (k', ts ++ [t]) :: rest else (k', ts) :: pushTs k t rest

/-- The string coercion `String(r["id.orig_h"] ?? "")`. -/
def beaconSrcStr (r : ZRecord) : String := strCoalesce (getField r "id.orig_h")

/-- The string coercion `String(r["id.resp_h"] ?? "")`. -/
def beaconDstStr (r : ZRecord) : String := strCoalesce (getField r "id.resp_h")

/-- The template rendering of the raw destination port in the beacon group
key (undefined renders as `"undefined"`). -/
def beaconPortStr (r : ZRecord) : String := optValToStr (getField r "id.resp_p")

/-- Does a record enter the beacon grouping pass? (`!src || !dst || !ts`
skips it.) -/
def beaconCollected (r : ZRecord) : Bool :=
  ¬ (beaconSrcStr r == "") && ¬ (beaconDstStr r == "") &&
  (match getField r "ts" with
   | some v => v.truthy
   | none => false)

/-- The group key `src + "|" + dst + "|" + port`. -/
def beaconKey (r : ZRecord) : String :=
  beaconSrcStr r ++ "|" ++ beaconDstStr r ++ "|" ++ beaconPortStr r

/-- The collected timestamp of a record, read through `ToNumber`.
Timestamps are numbers by the `ZeekRecord` contract, and the later uses of
a collected timestamp are all arithmetic, so coercing at collection time is
equivalent to the source's coercion at each use. -/
def beaconTs (r : ZRecord) : JsNum := toNumber ((getField r "ts").getD .nullV)

/-- The grouping pass of `detectBeaconing`: records with a falsy source,
destination, or timestamp are skipped; the rest push their timestamp onto
their key's list. -/
def beaconPairs (records : List ZRecord) : List (String × List JsNum) :=
  records.foldl (fun acc r =>
    if beaconCollected r then pushTs (beaconKey r) (beaconTs r) acc else acc) []

/-- Consecutive differences of a timestamp list (the `intervals` array). -/
def diffsOf : List JsNum → List JsNum
  | a :: b :: rest => (b.sub a) :: diffsOf (b :: rest)
  | _ => []

/-- The ascending numeric sort predicate (`(a, b) => a - b`, read through
the "comparator result not positive" convention of `sortJs`). -/
def leJs (a b : JsNum) : Bool := ¬ (JsNum.sub a b).posb

/-- The mean of a list of numbers (`reduce((a, b) => a + b, 0) / length`). -/
def meanJs (l : List JsNum) : JsNum :=
  (l.foldl JsNum.add (.fin 0)).divNat l.length

/-- The population variance of a list of numbers about its mean. -/
def varJs (l : List JsNum) : JsNum :=
  (l.foldl (fun (s i : JsNum) => s.add ((i.sub (meanJs l)).mul (i.sub (meanJs l)))) (.fin 0)).divNat l.length

/-- The test `jitter > maxJitterPercent` where
`jitter = Math.sqrt(variance) / avgInterval * 100`, evaluated exactly over
the rationals-with-specials: the square root is eliminated by squaring, and
each special case follows IEEE semantics (`NaN` comparisons are false, the
square root of a negative is NaN, division by zero gives a signed
infinity). -/
def jitterGtB (v m : JsNum) (maxJ : ℚ) : Bool :=
  match v, m with
  | .nan, _ => false
  | _, .nan => false
  | .negInf, _ => false
  | .posInf, .posInf => false
  | .posInf, .negInf => false
  | .posInf, .fin p => decide (0 ≤ p)
  | .fin q, .posInf => if q < 0 then false else decide (maxJ < 0)
  | .fin q, .negInf => if q < 0 then false else decide (maxJ < 0)
  | .fin q, .fin p =>
    if q < 0 then false
    else if p = 0 then decide (0 < q)
    else if 0 < p then decide (maxJ < 0 ∨ (0 ≤ maxJ ∧ maxJ ^ 2 * p ^ 2 < 10000 * q))
    else decide (maxJ < 0 ∧ 10000 * q < maxJ ^ 2 * p ^ 2)

/-- Strict equality of a raw resolved port value against a parsed port
number (`(r["id.resp_p"] as number) === parseInt(port, 10)`; a NaN parse
matches nothing). -/
def portEq (pv : Option Value) (pi : Option Int) : Bool :=
  match pv, pi with
  | some (.num n), some k => n.eqb (.fin (k : ℚ))
  | _, _ => false

/-- The byte-averaging pass over the records matching a candidate triple:
`orig_bytes` contributes to the total and the divisor, `resp_bytes` only to
the total. -/
def bytesFold (related : List ZRecord) : JsNum × Nat :=
  related.foldl (fun acc r =>
    let acc1 :=
      match getField r "orig_bytes" with
      | some (.num n) => (acc.1.add n, acc.2 + 1)
      | _ => acc
    match getField r "resp_bytes" with
    | some (.num n) => (acc1.1.add n, acc1.2)
    | _ => acc1) (.fin 0, 0)

/-- The byte-averaging step for one surviving group: average total bytes
over the records matching the candidate triple (parsed back out of the
key). -/
def beaconAvgBytes (records : List ZRecord) (src dst : String) (pInt : Option Int) : JsNum :=
  if (bytesFold (records.filter (fun r =>
      optValToStr (getField r "id.orig_h") == src &&
      optValToStr (getField r "id.resp_h") == dst &&
      portEq (getField r "id.resp_p") pInt))).2 > 0
  then (bytesFold (records.filter (fun r =>
      optValToStr (getField r "id.orig_h") == src &&
      optValToStr (getField r "id.resp_h") == dst &&
      portEq (getField r "id.resp_p") pInt))).1.divNat
    (bytesFold (records.filter (fun r =>
      optValToStr (getField r "id.orig_h") == src &&
      optValToStr (getField r "id.resp_h") == dst &&
      portEq (getField r "id.resp_p") pInt))).2
  else .fin 0

/-- Processing of one beacon group: the per-group body of the main loop of
`detectBeaconing`. The guards mirror the source's `continue` statements. -/
def beaconOfGroup (records : List ZRecord) (minC : Nat) (maxJ : ℚ)
    (key : String) (tss : List JsNum) : Option BeaconCandidate :=
  if tss.length < minC then none
  else if (diffsOf (sortJs leJs tss)).length = 0 then none
  else if (meanJs (diffsOf (sortJs leJs tss))).eqb (.fin 0) then none
  else if jitterGtB (varJs (diffsOf (sortJs leJs tss)))
    (meanJs (diffsOf (sortJs leJs tss))) maxJ then none
  else
    some { srcIp := ⟨(splitOnChar '|' key.toList).getD 0 []⟩
           dstIp := ⟨(splitOnChar '|' key.toList).getD 1 []⟩
           dstPort := parseIntJs 10 ((splitOnChar '|' key.toList).getD 2 [])
           connectionCount := tss.length
           avgIntervalExact := meanJs (diffsOf (sortJs leJs tss))
           varianceExact := varJs (diffsOf (sortJs leJs tss))
           avgBytesExact := beaconAvgBytes records
             ⟨(splitOnChar '|' key.toList).getD 0 []⟩
             ⟨(splitOnChar '|' key.toList).getD 1 []⟩
             (parseIntJs 10 ((splitOnChar '|' key.toList).getD 2 [])) }

/-- `detectBeaconing(records, minConnections = 10, maxJitterPercent = 30)`
(see the module note: candidates are produced in group insertion order; the
score ranking is omitted). -/
def detectBeaconing (records : List ZRecord) (minC : Nat := 10) (maxJ : ℚ := 30) :
    List BeaconCandidate :=
  (beaconPairs records).filterMap (fun kt => beaconOfGroup records minC maxJ kt.1 kt.2)

/-! ### Port-scan detection (`src/analytics/anomaly.ts`) -/

/-- Anomaly severity. -/
inductive Severity where
  | low | medium | high | critical
deriving DecidableEq

/-- A `port_scan` anomaly (`type` is always `"port_scan"`; the `details`
object is flattened into named fields). The other two sub-detectors of
`detectConnectionAnomalies` are outside the claims and not embedded. -/
structure PortScanAnomaly where
  severity : Severity
  description : String
  sourceIp : String
  portsScanned : Nat
  uniqueTargets : Nat
  samplePorts : List (Option Value)
deriving DecidableEq

/-- Add a value to a key's distinct-value list in an insertion-ordered
association list (the model of a `Map<string, Set<x>>` insert; both
structures iterate in insertion order, and `Set` membership is
SameValueZero, which the structural equality models). -/
def addDistinct (k : String) (v : Option Value) :
    List (String × List (Option Value)) → List (String × List (Option Value))
  | [] => [(k, [v])]
  | (k', vs) :: rest =>
    if k' = k then (k', if v ∈ vs then vs else vs ++ [v]) :: rest
    else (k', vs) :: addDistinct k v rest

/-- Does the record's connection state mark a failed/rejected attempt
(`S0` or `REJ`)? -/
def failedState (r : ZRecord) : Bool :=
  let cs := strCoalesce (getField r "conn_state")
  cs == "S0" || cs == "REJ"

/-- Per-source distinct destination ports over failed-state records
(`srcToPorts`). The port is the raw `id.resp_p` value. -/
def portGroups (records : List ZRecord) : List (String × List (Option Value)) :=
  records.foldl (fun acc r =>
    if failedState r then
      addDistinct (strCoalesce (getField r "id.orig_h")) (getField r "id.resp_p") acc
    else acc) []

/-- Per-source distinct destination hosts over failed-state records
(`srcToTargets`). -/
def targetGroups (records : List ZRecord) : List (String × List (Option Value)) :=
  records.foldl (fun acc r =>
    if failedState r then
      addDistinct (strCoalesce (getField r "id.orig_h")) (some (.str (strCoalesce (getField r "id.resp_h")))) acc
    else acc) []

/-- `detectPortScans(records)`: one anomaly per source with more than 50
distinct failed-state destination ports; severity high above 200 distinct
ports, else medium. -/
def detectPortScans (records : List ZRecord) : List PortScanAnomaly :=
  (portGroups records).filterMap (fun sp =>
    if 50 < sp.2.length then
      let targets := (((targetGroups records).find? (fun p => p.1 == sp.1)).map (fun p => p.2)).getD []
      some { severity := if 200 < sp.2.length then .high else .medium
             description := sp.1 ++ " scanned " ++ natToStr sp.2.length ++ " ports across " ++
               natToStr targets.length ++ " hosts"
             sourceIp := sp.1
             portsScanned := sp.2.length
             uniqueTargets := targets.length
             samplePorts := sp.2.take 20 }
    else none)

/-! ### Specification-side vocabulary

Declarative restatements used by the claims; each is compared against the
corresponding operational definition above by proof. -/

/-- The numeric values a field contributes to `sumField` / `avgField`: the
resolved values that are non-NaN numbers, in record order. -/
def numsOf (records : List ZRecord) (field : String) : List JsNum :=
  records.filterMap (fun r => numGuard (getNestedValue r field))

/-- The raw destination-port values of a source's failed-state records, in
record order (with multiplicity; the distinct count is the length of its
`dedup`). -/
def failedPortsOf (records : List ZRecord) (src : String) : List (Option Value) :=
  (records.filter (fun r =>
    failedState r && (strCoalesce (getField r "id.orig_h") == src))).map
    (fun r => getField r "id.resp_p")

/-- The collected timestamps of a (source, destination, port-string)
triple, in record order: the records that pass the beacon collection guard
and whose three coerced components match. -/
def tripleStream (records : List ZRecord) (src dst pstr : String) : List JsNum :=
  (records.filter (fun r =>
    beaconCollected r && (beaconSrcStr r == src) && (beaconDstStr r == dst) &&
    (beaconPortStr r == pstr))).map beaconTs

/-- A well-formed dotted-quad octet: nonempty, all decimal digits, value at
most 255. -/
def validOctetB (g : List Char) : Bool :=
  ¬ g.isEmpty && g.all Char.isDigit && digitsVal 10 g ≤ 255

/-- A well-formed dotted-quad IPv4 address: exactly four well-formed
octets. -/
def validIPv4 (ip : String) : Bool :=
  match splitOnChar '.' ip.toList with
  | [a, b, c, d] => validOctetB a && validOctetB b && validOctetB c && validOctetB d
  | _ => false

/-- The big-endian numeric value of a byte list (the 128-bit address value
for a 16-byte list). -/
def bytesVal : List Nat → Nat
  | [] => 0
  | b :: rest => b * 256 ^ rest.length + bytesVal rest

/-- Lookup of the first binding of a key in an association list (what a
JavaScript `Map.get` does over the insertion-ordered model). -/
def assocFind (k : String) (l : List (String × β)) : Option β :=
  (l.find? (fun p => p.1 == k)).map (fun p => p.2)

/-- Merging a value stream into a distinct-value list, keeping first-seen
order (repeated `Set.add`). -/
def mergeDistinct (vs : List (Option Value)) (s : List (Option Value)) : List (Option Value) :=
  s.foldl (fun acc v => if v ∈ acc then acc else acc ++ [v]) vs

/-- The collected timestamps of one beacon group key, in record order. -/
def keyStream (records : List ZRecord) (key : String) : List JsNum :=
  (records.filter (fun r => beaconCollected r && (beaconKey r == key))).map beaconTs

/-- The order established on collected timestamps by the ascending numeric
sort: both are finite rationals in nondecreasing order. -/
def finLe (a b : JsNum) : Prop := ∃ p q : ℚ, a = .fin p ∧ b = .fin q ∧ p ≤ q

/-- Does the record's `ts` field, when present, hold a finite numeric
value? (The `ZeekRecord` contract types `ts` as `number`; this is the
finiteness side condition under which the beaconing statistics are
analysed.) -/
def finNumTs (r : ZRecord) : Bool :=
  match getField r "ts" with
  | some (.num (.fin _)) => true
  | some _ => false
  | none => true

/-! ## Theorems

General lemmas about the sort model, the grouping folds and the string
utilities, followed by one theorem per claim (with its witness or
counterexample where required). -/

theorem length_insertSorted (le : α → α → Bool) (a : α) (l : List α) :
    (insertSorted le a l).length = l.length + 1 := by
  induction l with
  | nil => rfl
  | cons b bs ih =>
    simp only [insertSorted]
    split
    · simp
    · simp [ih]

theorem length_sortJs (le : α → α → Bool) (l : List α) :
    (sortJs le l).length = l.length := by
  induction l with
  | nil => rfl
  | cons x xs ih => simp [sortJs, length_insertSorted, ih]

theorem perm_insertSorted (le : α → α → Bool) (a : α) (l : List α) :
    (insertSorted le a l).Perm (a :: l) := by
  induction l with
  | nil => exact List.Perm.refl _
  | cons b bs ih =>
    simp only [insertSorted]
    split
    · exact List.Perm.refl _
    · exact ((ih.cons b).trans (List.Perm.swap a b bs))

theorem perm_sortJs (le : α → α → Bool) (l : List α) : (sortJs le l).Perm l := by
  induction l with
  | nil => exact List.Perm.refl _
  | cons x xs ih => exact (perm_insertSorted le x (sortJs le xs)).trans (ih.cons x)

theorem mem_insertSorted {le : α → α → Bool} {a x : α} {l : List α} :
    x ∈ insertSorted le a l ↔ x = a ∨ x ∈ l := by
  rw [(perm_insertSorted le a l).mem_iff]
  simp

theorem mem_sortJs {le : α → α → Bool} {x : α} {l : List α} :
    x ∈ sortJs le l ↔ x ∈ l := (perm_sortJs le l).mem_iff

/-- C3. For every record sequence and QueryOptions, the sequence returned
by executeQuery has length at most min(requestedLimit, externalCeiling); in
particular it never contains more records than the configured
maximum-results ceiling, even when the caller requests a larger limit. -/
theorem claim_C3 (maxResults : Nat) (opts : QueryOpts) (records : List ZRecord) :
    (executeQuery maxResults opts records).length ≤ min (opts.limit.getD 100) maxResults := by
  unfold executeQuery
  exact List.length_take_le _ _

/-- C9. When QueryOptions.limit is unspecified, executeQuery uses a default
requested limit of 100, so the result coincides with the result for an
explicit limit of 100 (truncation to min(100, maxResults)), rather than
defaulting to the maximum-results ceiling. -/
theorem claim_C9 (maxResults : Nat) (opts : QueryOpts) (records : List ZRecord) :
    executeQuery maxResults { opts with limit := none } records =
    executeQuery maxResults { opts with limit := some 100 } records := rfl

theorem sum_bumpKey (k : String) (l : List (String × Nat)) :
    ((bumpKey k l).map Prod.snd).sum = (l.map Prod.snd).sum + 1 := by
  induction l with
  | nil => simp [bumpKey]
  | cons p rest ih =>
    obtain ⟨k', c⟩ := p
    simp only [bumpKey]
    split
    · simp only [List.map_cons, List.sum_cons]
      omega
    · simp only [List.map_cons, List.sum_cons, ih]
      omega

theorem sum_groupCounts_aux (field : String) (records : List ZRecord)
    (acc : List (String × Nat)) :
    ((records.foldl (fun acc r => bumpKey (groupKey (getNestedValue r field)) acc) acc).map
      Prod.snd).sum = (acc.map Prod.snd).sum + records.length := by
  induction records generalizing acc with
  | nil => simp
  | cons r rest ih =>
    simp only [List.foldl_cons, ih, sum_bumpKey, List.length_cons]
    omega

theorem sum_groupCounts (records : List ZRecord) (field : String) :
    ((groupCounts records field).map Prod.snd).sum = records.length := by
  have h := sum_groupCounts_aux field records []
  simpa [groupCounts] using h

/-- C7. For every record list, field, and group limit, groupBy total equals
the number of input records (the full input size), and the sum of the
counts of the returned groups is at most that total. -/
theorem claim_C7 (records : List ZRecord) (field : String) (limit : Nat) :
    (groupBy records field limit).total = records.length ∧
    ((groupBy records field limit).groups.map (fun g => g.count)).sum ≤
      (groupBy records field limit).total := by
  constructor
  · rfl
  · show ((((sortJs countDescLe (groupCounts records field)).take limit).map _).map _).sum ≤
      records.length
    rw [List.map_map]
    have hperm : ((sortJs countDescLe (groupCounts records field)).map Prod.snd).Perm
        ((groupCounts records field).map Prod.snd) :=
      (perm_sortJs countDescLe (groupCounts records field)).map Prod.snd
    have hsum : ((sortJs countDescLe (groupCounts records field)).map Prod.snd).sum
        = records.length := by
      rw [hperm.sum_eq, sum_groupCounts]
    calc (((sortJs countDescLe (groupCounts records field)).take limit).map
            ((fun g => g.count) ∘ fun kc => GroupResult.mk kc.1 kc.2
              (if records.length > 0 then
                ((jsRound ((kc.2 : ℚ) / (records.length : ℚ) * 10000)) : ℚ) / 100 else 0))).sum
        = (((sortJs countDescLe (groupCounts records field)).map Prod.snd).take limit).sum := by
          rw [← List.map_take]
          rfl
      _ ≤ ((sortJs countDescLe (groupCounts records field)).map Prod.snd).sum := by
          rw [← List.sum_take_add_sum_drop ((sortJs countDescLe (groupCounts records field)).map Prod.snd) limit]
          omega
      _ = records.length := hsum

theorem hex_subset_b64 (c : Char) (h : isHexDigitJs c = true) : isB64Char c = true := by
  simp only [isHexDigitJs, Bool.or_eq_true, Bool.and_eq_true, decide_eq_true_eq] at h
  simp only [isB64Char, Char.isAlphanum, Char.isAlpha, Char.isUpper, Char.isLower, Char.isDigit,
    Bool.or_eq_true, Bool.and_eq_true, decide_eq_true_eq]
  rcases h with (h | h) | h
  · simp only [Char.isDigit, Bool.and_eq_true, decide_eq_true_eq] at h
    tauto
  · have h1 : 'a' ≤ c := h.1
    have h2 : c ≤ 'z' := le_trans h.2 (by decide)
    tauto
  · have h1 : 'A' ≤ c := h.1
    have h2 : c ≤ 'Z' := le_trans h.2 (by decide)
    tauto

theorem eq_not_hex : isHexDigitJs '=' = false := by decide

theorem stripTrailingEq_of_no_eq {l : List Char} (h : '=' ∉ l) : stripTrailingEq l = l := by
  have hrev : ∀ rest : List Char, l.reverse ≠ '=' :: rest := by
    intro rest heq
    apply h
    have hm : '=' ∈ l.reverse := by rw [heq]; exact List.mem_cons_self _ _
    simpa using hm
  unfold stripTrailingEq
  split
  · exact absurd (by assumption) (hrev _)
  · exact absurd (by assumption) (hrev _)
  · rfl

/-- C10. detectEncoding checks the hex condition before the base64
condition: every string longer than 10 characters with even length
consisting solely of hexadecimal digits (which also satisfies the base64
alphabet test) yields "hex" and never "base64"; "base64" is returned only
for strings longer than 10 characters matching the base64 test that fail
the hex condition. -/
theorem claim_C10 :
    (∀ s : String, matchHex s.toList = true → 10 < s.toList.length →
      s.toList.length % 2 = 0 →
      detectEncoding s = some "hex" ∧ matchB64 s.toList = true) ∧
    (∀ s : String, detectEncoding s = some "base64" →
      matchB64 s.toList = true ∧ 10 < s.toList.length ∧
      ¬ (matchHex s.toList = true ∧ 10 < s.toList.length ∧ s.toList.length % 2 = 0)) := by
  constructor
  · intro s hhex hlen heven
    have hb64 : matchB64 s.toList = true := by
      simp only [matchHex, Bool.and_eq_true, Bool.not_eq_true', List.isEmpty_eq_false_iff_exists_mem,
        List.all_eq_true] at hhex
      have hne : '=' ∉ s.toList := by
        intro hm
        have := hhex.2 '=' hm
        rw [eq_not_hex] at this
        exact Bool.false_ne_true this
      simp only [matchB64, stripTrailingEq_of_no_eq hne, Bool.and_eq_true, Bool.not_eq_true',
        List.isEmpty_eq_false_iff_exists_mem, List.all_eq_true]
      exact ⟨hhex.1, fun c hc => hex_subset_b64 c (hhex.2 c hc)⟩
    refine ⟨?_, hb64⟩
    have hc : (matchHex s.toList && decide (s.toList.length > 10) &&
        (s.toList.length % 2 == 0)) = true := by
      rw [hhex, decide_eq_true hlen, heven]
      rfl
    unfold detectEncoding
    rw [if_pos hc]
  · intro s hb
    unfold detectEncoding at hb
    by_cases hcond : (matchHex s.toList && decide (s.toList.length > 10) &&
        (s.toList.length % 2 == 0)) = true
    · rw [if_pos hcond] at hb
      exact absurd hb (by simp)
    · rw [if_neg hcond] at hb
      by_cases hcond2 : (matchB64 s.toList && decide (s.toList.length > 10)) = true
      · rw [if_pos hcond2] at hb
        simp only [Bool.and_eq_true, decide_eq_true_eq] at hcond2
        refine ⟨hcond2.1, hcond2.2, ?_⟩
        intro ⟨h1, h2, h3⟩
        apply hcond
        rw [h1, decide_eq_true h2, h3]
        rfl
      · rw [if_neg hcond2] at hb
        exact absurd hb (by simp)

theorem claim_C10_witness :
    detectEncoding "deadbeef1234" = some "hex" ∧ matchB64 "deadbeef1234".toList = true :=
  claim_C10.1 "deadbeef1234" (by decide) (by decide) (by decide)

/-- C2 counterexample. The claim says infinite resolved values contribute
nothing to the sum, so the sum over a single record whose field is positive
infinity would have to be 0; the code's guard `typeof value === "number" &&
!isNaN(value)` lets Infinity through, and the sum is Infinity. -/
theorem claim_C2_counterexample :
    sumField [[("f", Value.num JsNum.posInf)]] "f" = JsNum.posInf ∧
    JsNum.posInf ≠ JsNum.fin 0 := by
  constructor
  · rfl
  · decide

theorem sumField_aux (field : String) (records : List ZRecord) (acc : JsNum) :
    records.foldl (fun total r =>
      match numGuard (getNestedValue r field) with
      | some n => total.add n
      | none => total) acc
    = (numsOf records field).foldl JsNum.add acc := by
  induction records generalizing acc with
  | nil => rfl
  | cons r rest ih =>
    simp only [List.foldl_cons, numsOf, List.filterMap_cons]
    cases h : numGuard (getNestedValue r field) with
    | none => simpa [h] using ih acc
    | some n => simpa [h] using ih (acc.add n)

theorem numCount_aux (field : String) (records : List ZRecord) (acc : Nat) :
    records.foldl (fun c r =>
      match numGuard (getNestedValue r field) with
      | some _ => c + 1
      | none => c) acc
    = (numsOf records field).length + acc := by
  induction records generalizing acc with
  | nil => simp [numsOf]
  | cons r rest ih =>
    simp only [List.foldl_cons, numsOf, List.filterMap_cons]
    cases h : numGuard (getNestedValue r field) with
    | none => simpa [h, numsOf] using ih acc
    | some n =>
      simp only [h]
      rw [ih (acc + 1)]
      simp [numsOf]
      omega

/-- C2 amended. sumField and avgField skip every record whose resolved
value is not a number or is NaN — but infinite values pass the guard and do
contribute; with that reading, the sum is exactly the fold of the guarded
values, avgField returns 0 whenever no record passes the guard, and in
particular avgField of the empty list is 0 (never NaN). -/
theorem claim_C2_amended :
    (∀ (ov : Option Value) (n : JsNum),
      numGuard ov = some n → ov = some (Value.num n) ∧ n ≠ JsNum.nan) ∧
    (∀ n : JsNum, n ≠ JsNum.nan → numGuard (some (Value.num n)) = some n) ∧
    (∀ (records : List ZRecord) (field : String),
      sumField records field = (numsOf records field).foldl JsNum.add (.fin 0)) ∧
    (∀ (records : List ZRecord) (field : String),
      numsOf records field = [] → avgField records field = .fin 0) ∧
    (∀ field : String, avgField [] field = .fin 0) := by
  refine ⟨?_, ?_, ?_, ?_, ?_⟩
  · intro ov n h
    match ov, h with
    | some (.num (.fin q)), h =>
      injection h with h
      subst h
      exact ⟨rfl, by simp⟩
    | some (.num .posInf), h =>
      injection h with h
      subst h
      exact ⟨rfl, by simp⟩
    | some (.num .negInf), h =>
      injection h with h
      subst h
      exact ⟨rfl, by simp⟩
  · intro n hn
    match n, hn with
    | .fin q, _ => rfl
    | .posInf, _ => rfl
    | .negInf, _ => rfl
    | .nan, hn => exact absurd rfl hn
  · intro records field
    exact sumField_aux field records (.fin 0)
  · intro records field h
    unfold avgField numCount
    rw [numCount_aux field records 0, h]
    rfl
  · intro field
    rfl

theorem claim_C2_amended_witness :
    numGuard (some (Value.num (JsNum.fin 3))) = some (JsNum.fin 3) ∧
    avgField [[("g", Value.str "x")]] "f" = JsNum.fin 0 :=
  ⟨claim_C2_amended.2.1 (JsNum.fin 3) (by decide),
   claim_C2_amended.2.2.2.1 [[("g", Value.str "x")]] "f" (by rfl)⟩

theorem pairwise_insertSorted (A : α → Prop) (le : α → α → Bool)
    (hpa : ∀ x y, ¬ A x → A y → le x y = true)
    (hap : ∀ x y, A x → ¬ A y → le x y = false)
    (a : α) (l : List α) (hl : l.Pairwise (fun x y => A x → A y)) :
    (insertSorted le a l).Pairwise (fun x y => A x → A y) := by
  induction l with
  | nil => exact List.pairwise_singleton _ _
  | cons b bs ih =>
    rw [List.pairwise_cons] at hl
    obtain ⟨hb, hbs⟩ := hl
    simp only [insertSorted]
    by_cases hle : le a b = true
    · rw [if_pos hle, List.pairwise_cons]
      refine ⟨?_, List.pairwise_cons.mpr ⟨hb, hbs⟩⟩
      intro y hy ha
      have hAb : A b := by
        by_contra hnb
        rw [hap a b ha hnb] at hle
        exact Bool.false_ne_true hle
      rcases List.mem_cons.mp hy with rfl | hy
      · exact hAb
      · exact hb y hy hAb
    · rw [if_neg hle, List.pairwise_cons]
      refine ⟨?_, ih hbs⟩
      intro y hy hAb
      rcases mem_insertSorted.mp hy with rfl | hy
      · by_contra hna
        exact hle (hpa _ _ hna hAb)
      · exact hb y hy hAb

theorem pairwise_sortJs (A : α → Prop) (le : α → α → Bool)
    (hpa : ∀ x y, ¬ A x → A y → le x y = true)
    (hap : ∀ x y, A x → ¬ A y → le x y = false)
    (l : List α) :
    (sortJs le l).Pairwise (fun x y => A x → A y) := by
  induction l with
  | nil => exact List.Pairwise.nil
  | cons x xs ih => exact pairwise_insertSorted A le hpa hap x (sortJs le xs) ih

/-- C4. In the sequence returned by executeQuery, every record whose sort
field resolves to absent appears after every record whose sort field
resolves to a present value, for both sort orders (formally: the output is
pairwise "absent only followed by absent"); and when both compared records
are present, the comparator is numeric subtraction when both resolve to
numbers and lexicographic string comparison otherwise, with the descending
direction applied uniformly as the negation of that comparison result. -/
theorem claim_C4 :
    (∀ (maxResults : Nat) (opts : QueryOpts) (records : List ZRecord),
      (executeQuery maxResults opts records).Pairwise
        (fun a b => getNestedValue a (opts.sortBy.getD "ts") = none →
                    getNestedValue b (opts.sortBy.getD "ts") = none)) ∧
    (∀ (field : String) (a b : ZRecord) (x y : Value),
      getNestedValue a field = some x → getNestedValue b field = some y →
      recCmp field .desc a b = (recCmp field .asc a b).neg) ∧
    (∀ (field : String) (a b : ZRecord) (p q : JsNum),
      getNestedValue a field = some (.num p) → getNestedValue b field = some (.num q) →
      recCmp field .asc a b = p.sub q) ∧
    (∀ (field : String) (a b : ZRecord) (x y : Value),
      getNestedValue a field = some x → getNestedValue b field = some y →
      ((∀ p, x ≠ Value.num p) ∨ (∀ q, y ≠ Value.num q)) →
      recCmp field .asc a b = .fin (strCmp (valToStr x).toList (valToStr y).toList)) := by
  refine ⟨?_, ?_, ?_, ?_⟩
  · intro maxResults opts records
    unfold executeQuery
    apply List.Pairwise.sublist (List.take_sublist _ _)
    apply pairwise_sortJs (fun r => getNestedValue r (opts.sortBy.getD "ts") = none)
    · intro x y hx hy
      obtain ⟨v, hv⟩ := Option.ne_none_iff_exists'.mp hx
      simp only [recCmp, hv, hy]
      rfl
    · intro x y hx hy
      obtain ⟨v, hv⟩ := Option.ne_none_iff_exists'.mp hy
      simp only [recCmp, hx, hv]
      rfl
  · intro field a b x y ha hb
    simp only [recCmp, ha, hb]
  · intro field a b p q ha hb
    simp only [recCmp, ha, hb]
  · intro field a b x y ha hb h
    simp only [recCmp, ha, hb]
    cases x <;> cases y <;>
      first
        | rfl
        | (exfalso
           rcases h with h | h
           · exact h _ rfl
           · exact h _ rfl)

theorem claim_C4_witness :
    recCmp "duration" .desc [("duration", Value.num (.fin 5))] [("duration", Value.num (.fin 1))]
      = (recCmp "duration" .asc [("duration", Value.num (.fin 5))]
          [("duration", Value.num (.fin 1))]).neg ∧
    recCmp "duration" .asc [("duration", Value.num (.fin 5))] [("duration", Value.num (.fin 1))]
      = (JsNum.fin 5).sub (JsNum.fin 1) ∧
    recCmp "host" .asc [("host", Value.str "aa")] [("host", Value.str "ab")]
      = .fin (strCmp "aa".toList "ab".toList) :=
  ⟨claim_C4.2.1 "duration" _ _ _ _ rfl rfl,
   claim_C4.2.2.1 "duration" _ _ _ _ rfl rfl,
   claim_C4.2.2.2 "host" _ _ (Value.str "aa") (Value.str "ab") rfl rfl
     (Or.inl (fun p h => by cases h))⟩

theorem splitOnChar_ne_nil (c : Char) (l : List Char) : splitOnChar c l ≠ [] := by
  cases l with
  | nil => simp [splitOnChar]
  | cons x xs =>
    simp only [splitOnChar]
    cases h : splitOnChar c xs with
    | nil => simp
    | cons g gs => by_cases hx : x = c <;> simp [hx]

theorem splitOnChar_cons (c x : Char) (xs : List Char) :
    splitOnChar c (x :: xs) =
      if x = c then [] :: splitOnChar c xs
      else (x :: (splitOnChar c xs).headD []) :: (splitOnChar c xs).tail := by
  simp only [splitOnChar]
  cases h : splitOnChar c xs with
  | nil => exact absurd h (splitOnChar_ne_nil c xs)
  | cons g gs => by_cases hx : x = c <;> simp [hx]

theorem splitOnChar_of_not_mem {c : Char} {l : List Char} (h : c ∉ l) :
    splitOnChar c l = [l] := by
  induction l with
  | nil => rfl
  | cons x xs ih =>
    have hx : x ≠ c := fun e => h (e ▸ List.mem_cons_self x xs)
    have hxs : c ∉ xs := fun m => h (List.mem_cons_of_mem x m)
    rw [splitOnChar_cons, if_neg hx, ih hxs]
    rfl

theorem splitOnChar_append {c : Char} {l₁ : List Char} (l₂ : List Char) (h : c ∉ l₁) :
    splitOnChar c (l₁ ++ c :: l₂) = l₁ :: splitOnChar c l₂ := by
  induction l₁ with
  | nil =>
    rw [List.nil_append, splitOnChar_cons, if_pos rfl]
  | cons x xs ih =>
    have hx : x ≠ c := fun e => h (e ▸ List.mem_cons_self x xs)
    have hxs : c ∉ xs := fun m => h (List.mem_cons_of_mem x m)
    rw [List.cons_append, splitOnChar_cons, if_neg hx, ih hxs]
    rfl

theorem mem_of_splitOnChar {c x : Char} {l : List Char} (h : x ∈ l) :
    x = c ∨ ∃ g ∈ splitOnChar c l, x ∈ g := by
  induction l with
  | nil => cases h
  | cons y ys ih =>
    rw [splitOnChar_cons]
    cases hs : splitOnChar c ys with
    | nil => exact absurd hs (splitOnChar_ne_nil c ys)
    | cons g gs =>
      by_cases hy : y = c
      · rw [if_pos hy]
        rcases List.mem_cons.mp h with rfl | hm
        · exact Or.inl hy
        · rcases ih hm with hc | ⟨g', hg', hxg'⟩
          · exact Or.inl hc
          · rw [hs] at hg'
            exact Or.inr ⟨g', List.mem_cons_of_mem _ hg', hxg'⟩
      · rw [if_neg hy]
        simp only [List.headD_cons, List.tail_cons]
        rcases List.mem_cons.mp h with rfl | hm
        · exact Or.inr ⟨x :: g, List.mem_cons_self _ _, List.mem_cons_self _ _⟩
        · rcases ih hm with hc | ⟨g', hg', hxg'⟩
          · exact Or.inl hc
          · rw [hs] at hg'
            rcases List.mem_cons.mp hg' with rfl | hg'
            · exact Or.inr ⟨y :: g', List.mem_cons_self _ _, List.mem_cons_of_mem _ hxg'⟩
            · exact Or.inr ⟨g', List.mem_cons_of_mem _ hg', hxg'⟩

theorem digit_not_ws {c : Char} (h : c.isDigit = true) : c.isWhitespace = false := by
  unfold Char.isWhitespace
  by_contra hw
  simp only [Bool.not_eq_false, Bool.or_eq_true, decide_eq_true_eq] at hw
  rcases hw with ((h1 | h1) | h1) | h1 <;> (subst h1; revert h; decide)

theorem digit_ne_sign {c : Char} (h : c.isDigit = true) : c ≠ '-' ∧ c ≠ '+' := by
  constructor <;> (intro e; subst e; revert h; decide)

theorem hasChar_iff {c : Char} {l : List Char} : hasChar c l = true ↔ c ∈ l := by
  simp only [hasChar, List.any_eq_true, beq_iff_eq]
  constructor
  · rintro ⟨x, hx, rfl⟩
    exact hx
  · intro hc
    exact ⟨c, hc, rfl⟩

theorem parseIntCore_digits (l : List Char) (h2 : ∀ ch ∈ l, ch.isDigit = true) :
    parseIntCore 10 l = if l.isEmpty then none else some ((digitsVal 10 l : Nat) : Int) := by
  unfold parseIntCore
  rw [if_neg (by decide : ¬ (10 = 16))]
  have htake : l.takeWhile (isRadixDigit 10) = l := by
    rw [List.takeWhile_eq_self_iff]
    intro x hx
    simpa [isRadixDigit] using h2 x hx
  simp only [htake]

theorem parseIntJs_digits (l : List Char) (h1 : ¬ l.isEmpty = true)
    (h2 : ∀ ch ∈ l, ch.isDigit = true) :
    parseIntJs 10 l = some ((digitsVal 10 l : Nat) : Int) := by
  obtain ⟨c, rest, rfl⟩ :=
    List.exists_cons_of_ne_nil (by simpa using h1 : l ≠ [])
  have hc : c.isDigit = true := h2 c (List.mem_cons_self _ _)
  obtain ⟨hm, hp⟩ := digit_ne_sign hc
  unfold parseIntJs
  have hdrop : (c :: rest).dropWhile Char.isWhitespace = c :: rest := by
    rw [List.dropWhile_cons, digit_not_ws hc]
    simp
  rw [hdrop]
  simp only [parseIntSigned]
  rw [if_neg hm, if_neg hp, parseIntCore_digits _ h2]
  rfl

theorem ipv4Fold_cons {p : List Char} (ps : List (List Char)) (acc : Nat)
    (h : validOctetB p = true) :
    ipv4Fold (p :: ps) acc = ipv4Fold ps (acc * 256 + digitsVal 10 p) := by
  simp only [validOctetB, Bool.and_eq_true, Bool.not_eq_true', List.all_eq_true,
    decide_eq_true_eq] at h
  obtain ⟨⟨hne, hdig⟩, hle⟩ := h
  conv_lhs => rw [ipv4Fold]
  rw [parseIntJs_digits p (by simp [hne]) hdig, Option.some_bind]
  have hnn : (decide (((digitsVal 10 p : Nat) : Int) < 0) ||
      decide ((255 : Int) < ((digitsVal 10 p : Nat) : Int))) = false := by
    simp only [Bool.or_eq_false_iff, decide_eq_false_iff_not]
    omega
  rw [hnn]
  simp

set_option maxRecDepth 4000 in
theorem ipv4ToNum_of_valid {ip : String} (h : validIPv4 ip = true) :
    ∃ n : Nat, ipv4ToNum ip.toList = some n := by
  unfold validIPv4 at h
  split at h
  · next a b c d heq =>
    simp only [Bool.and_eq_true] at h
    obtain ⟨⟨⟨ha, hb⟩, hc⟩, hd⟩ := h
    refine ⟨digitsVal 10 a * 256 ^ 3 + digitsVal 10 b * 256 ^ 2 +
      digitsVal 10 c * 256 + digitsVal 10 d, ?_⟩
    unfold ipv4ToNum
    rw [heq]
    simp only [List.length_cons, List.length_nil]
    rw [if_neg (by omega)]
    rw [ipv4Fold_cons _ _ ha, ipv4Fold_cons _ _ hb, ipv4Fold_cons _ _ hc, ipv4Fold_cons _ _ hd]
    rw [show ∀ acc : Nat, ipv4Fold [] acc = some acc from fun _ => rfl]
    congr 1
    ring
  · exact absurd h (by simp)

theorem validIPv4_chars {ip : String} (h : validIPv4 ip = true) :
    '/' ∉ ip.toList ∧ ':' ∉ ip.toList := by
  have hmem : ∀ x ∈ ip.toList, x = '.' ∨ x.isDigit = true := by
    intro x hx
    rcases mem_of_splitOnChar (c := '.') hx with hc | ⟨g, hg, hxg⟩
    · exact Or.inl hc
    · right
      unfold validIPv4 at h
      split at h
      · next a b c d heq =>
        simp only [Bool.and_eq_true] at h
        obtain ⟨⟨⟨ha, hb⟩, hc'⟩, hd⟩ := h
        rw [heq] at hg
        have hoct : ∀ p, validOctetB p = true → x ∈ p → x.isDigit = true := by
          intro p hp hxp
          simp only [validOctetB, Bool.and_eq_true, List.all_eq_true] at hp
          exact hp.1.2 x hxp
        simp only [List.mem_cons, List.not_mem_nil, or_false] at hg
        rcases hg with rfl | rfl | rfl | rfl
        · exact hoct _ ha hxg
        · exact hoct _ hb hxg
        · exact hoct _ hc' hxg
        · exact hoct _ hd hxg
      · exact absurd h (by simp)
  constructor
  · intro hm
    rcases hmem '/' hm with hc | hd
    · cases hc
    · exact absurd hd (by decide)
  · intro hm
    rcases hmem ':' hm with hc | hd
    · cases hc
    · exact absurd hd (by decide)

/-- C8. For every well-formed dotted-quad IPv4 address ip, both CIDR
matchers satisfy the identities matchCidr(ip, ip + "/32") = true (a /32
prefix is exact match, as the mask comparison of the address with itself)
and matchCidr(ip, "0.0.0.0/0") = true (a /0 prefix matches every IPv4
address, as the zero mask). -/
theorem claim_C8 (ip : String) (h : validIPv4 ip = true) :
    matchCidrFilters ip (ip ++ "/32") = true ∧
    matchCidrEngine ip (ip ++ "/32") = true ∧
    matchCidrFilters ip "0.0.0.0/0" = true ∧
    matchCidrEngine ip "0.0.0.0/0" = true := by
  obtain ⟨hns, hnc⟩ := validIPv4_chars h
  obtain ⟨n, hn⟩ := ipv4ToNum_of_valid h
  have htl : (ip ++ "/32").toList = ip.toList ++ '/' :: ['3', '2'] := by
    simp [String.toList]
  have hsplit : splitOnChar '/' ((ip ++ "/32").toList) = [ip.toList, ['3', '2']] := by
    rw [htl, splitOnChar_append _ hns, splitOnChar_of_not_mem (by decide)]
  have hhas : hasChar '/' ((ip ++ "/32").toList) = true := by
    rw [hasChar_iff, htl]
    exact List.mem_append_right _ (List.mem_cons_self _ _)
  have hnchas : hasChar ':' ip.toList = false := by
    rw [← Bool.not_eq_true, hasChar_iff]
    exact hnc
  have hhas0 : hasChar '/' ("0.0.0.0/0".toList) = true := by decide
  have hsplit0 : splitOnChar '/' ("0.0.0.0/0".toList) = ["0.0.0.0".toList, ['0']] := by decide
  have hnchas2 : hasChar ':' ("0.0.0.0".toList) = false := by decide
  have h0 : ipv4ToNum ("0.0.0.0".toList) = some 0 := by decide
  have hm : maskFor (parseIntJs 10 ['0']) = 0 := by decide
  refine ⟨?_, ?_, ?_, ?_⟩
  · unfold matchCidrFilters
    simp only [hhas, hsplit, List.getD_cons_zero, List.getD_cons_succ, hnchas, hn,
      Bool.or_self, not_true, if_false]
    simp
  · unfold matchCidrEngine
    simp only [hhas, hsplit, List.getD_cons_zero, List.getD_cons_succ, hn,
      not_true, if_false]
    simp
  · unfold matchCidrFilters
    simp only [hhas0, hsplit0, List.getD_cons_zero, List.getD_cons_succ, hnchas, hnchas2,
      Bool.or_self, not_true, if_false, hn, h0, hm]
    simp
  · unfold matchCidrEngine
    simp only [hhas0, hsplit0, List.getD_cons_zero, List.getD_cons_succ, hn, h0, hm,
      not_true, if_false]
    simp

set_option maxRecDepth 10000 in
theorem claim_C8_witness :
    validIPv4 "192.168.1.1" = true ∧
    matchCidrFilters "192.168.1.1" ("192.168.1.1" ++ "/32") = true ∧
    matchCidrFilters "192.168.1.1" "0.0.0.0/0" = true :=
  ⟨by decide, (claim_C8 "192.168.1.1" (by decide)).1,
   (claim_C8 "192.168.1.1" (by decide)).2.2.1⟩

theorem assocFind_cons {β : Type} (k k' : String) (w : β) (l : List (String × β)) :
    assocFind k ((k', w) :: l) = if k' = k then some w else assocFind k l := by
  by_cases h : k' = k
  · rw [if_pos h]
    unfold assocFind
    rw [List.find?_cons_of_pos _ (by simpa using h)]
    rfl
  · rw [if_neg h]
    unfold assocFind
    rw [List.find?_cons_of_neg _ (by simpa using h)]

theorem addDistinct_find_self (k : String) (v : Option Value)
    (l : List (String × List (Option Value))) :
    assocFind k (addDistinct k v l) =
      some (if v ∈ (assocFind k l).getD [] then (assocFind k l).getD []
            else (assocFind k l).getD [] ++ [v]) := by
  induction l with
  | nil => simp [addDistinct, assocFind_cons, assocFind]
  | cons p rest ih =>
    obtain ⟨k', vs⟩ := p
    by_cases h : k' = k
    · subst h
      simp [addDistinct, assocFind_cons]
    · simp only [addDistinct, if_neg h, assocFind_cons, ih]

theorem addDistinct_find_ne (k0 k : String) (hk : k0 ≠ k) (v : Option Value)
    (l : List (String × List (Option Value))) :
    assocFind k (addDistinct k0 v l) = assocFind k l := by
  induction l with
  | nil => simp [addDistinct, assocFind_cons, assocFind, hk]
  | cons p rest ih =>
    obtain ⟨k', vs⟩ := p
    by_cases h : k' = k0
    · subst h
      simp [addDistinct, assocFind_cons, if_neg hk]
    · simp only [addDistinct, if_neg h, assocFind_cons, ih]

theorem addDistinct_keys (k : String) (v : Option Value)
    (l : List (String × List (Option Value))) :
    (addDistinct k v l).map Prod.fst =
      if k ∈ l.map Prod.fst then l.map Prod.fst else l.map Prod.fst ++ [k] := by
  induction l with
  | nil => simp [addDistinct]
  | cons p rest ih =>
    obtain ⟨k', vs⟩ := p
    by_cases h : k' = k
    · subst h
      simp [addDistinct]
    · simp only [addDistinct, if_neg h, List.map_cons, ih, List.mem_cons]
      by_cases hm : k ∈ rest.map Prod.fst
      · simp [hm, Ne.symm h]
      · simp [hm, Ne.symm h]

theorem addDistinct_keys_nodup (k : String) (v : Option Value)
    (l : List (String × List (Option Value))) (h : (l.map Prod.fst).Nodup) :
    ((addDistinct k v l).map Prod.fst).Nodup := by
  rw [addDistinct_keys]
  by_cases hm : k ∈ l.map Prod.fst
  · simpa [hm] using h
  · rw [if_neg hm]
    rw [List.nodup_append]
    exact ⟨h, List.nodup_singleton k, by simpa using hm⟩

theorem mergeDistinct_cons (vs : List (Option Value)) (v : Option Value)
    (s : List (Option Value)) :
    mergeDistinct vs (v :: s) = mergeDistinct (if v ∈ vs then vs else vs ++ [v]) s := rfl

theorem mergeDistinct_nil (vs : List (Option Value)) : mergeDistinct vs [] = vs := rfl

theorem mergeDistinct_nodup (s : List (Option Value)) :
    ∀ vs : List (Option Value), vs.Nodup → (mergeDistinct vs s).Nodup := by
  induction s with
  | nil => intro vs h; exact h
  | cons v s ih =>
    intro vs h
    rw [mergeDistinct_cons]
    apply ih
    by_cases hm : v ∈ vs
    · simpa [hm] using h
    · rw [if_neg hm, List.nodup_append]
      exact ⟨h, List.nodup_singleton v, by simpa using hm⟩

theorem mem_mergeDistinct (s : List (Option Value)) :
    ∀ (vs : List (Option Value)) (x : Option Value),
      x ∈ mergeDistinct vs s ↔ x ∈ vs ∨ x ∈ s := by
  induction s with
  | nil => intro vs x; simp [mergeDistinct_nil]
  | cons v s ih =>
    intro vs x
    rw [mergeDistinct_cons, ih]
    by_cases hm : v ∈ vs
    · simp only [if_pos hm, List.mem_cons]
      constructor
      · rintro (h | h)
        · exact Or.inl h
        · exact Or.inr (Or.inr h)
      · rintro (h | rfl | h)
        · exact Or.inl h
        · exact Or.inl hm
        · exact Or.inr h
    · simp only [if_neg hm, List.mem_append, List.mem_singleton, List.mem_cons]
      tauto

theorem mergeDistinct_nil_length (s : List (Option Value)) :
    (mergeDistinct [] s).length = s.dedup.length := by
  have h1 : (mergeDistinct [] s).Nodup := mergeDistinct_nodup s [] List.nodup_nil
  calc (mergeDistinct [] s).length
      = (mergeDistinct [] s).toFinset.card := (List.toFinset_card_of_nodup h1).symm
    _ = s.dedup.toFinset.card := by
        congr 1
        ext x
        simp [List.mem_toFinset, mem_mergeDistinct, List.mem_dedup]
    _ = s.dedup.length := List.toFinset_card_of_nodup (List.nodup_dedup s)

theorem mem_assocFind_of_nodup {β : Type} {l : List (String × β)} {p : String × β}
    (hk : (l.map Prod.fst).Nodup) (h : p ∈ l) : assocFind p.1 l = some p.2 := by
  induction l with
  | nil => cases h
  | cons q rest ih =>
    obtain ⟨k', w⟩ := q
    rcases List.mem_cons.mp h with rfl | hm
    · rw [assocFind_cons, if_pos rfl]
    · have hne : k' ≠ p.1 := by
        intro e
        rw [List.map_cons, List.nodup_cons] at hk
        apply hk.1
        rw [e]
        exact List.mem_map.mpr ⟨p, hm, rfl⟩
      rw [assocFind_cons, if_neg hne]
      exact ih (by rw [List.map_cons, List.nodup_cons] at hk; exact hk.2) hm

theorem assocFind_some_mem {β : Type} {l : List (String × β)} {k : String} {w : β}
    (h : assocFind k l = some w) : (k, w) ∈ l := by
  unfold assocFind at h
  cases hf : l.find? (fun p => p.1 == k) with
  | none => rw [hf] at h; cases h
  | some p =>
    rw [hf] at h
    have hp : p.1 = k := by simpa using List.find?_some hf
    have hm : p ∈ l := List.mem_of_find?_eq_some hf
    injection h with h
    rw [← hp, ← h]
    simpa using hm

theorem failedPortsOf_cons (r : ZRecord) (rest : List ZRecord) (src : String) :
    failedPortsOf (r :: rest) src =
      if (failedState r && (strCoalesce (getField r "id.orig_h") == src)) = true
      then getField r "id.resp_p" :: failedPortsOf rest src
      else failedPortsOf rest src := by
  simp only [failedPortsOf, List.filter_cons]
  split
  · simp
  · rfl

theorem portGroups_aux (records : List ZRecord) :
    ∀ (acc : List (String × List (Option Value))) (src : String),
    ((assocFind src (records.foldl (fun acc r =>
        if failedState r then
          addDistinct (strCoalesce (getField r "id.orig_h")) (getField r "id.resp_p") acc
        else acc) acc)).getD []
      = mergeDistinct ((assocFind src acc).getD []) (failedPortsOf records src)) ∧
    (assocFind src (records.foldl (fun acc r =>
        if failedState r then
          addDistinct (strCoalesce (getField r "id.orig_h")) (getField r "id.resp_p") acc
        else acc) acc) = none ↔
      assocFind src acc = none ∧ failedPortsOf records src = []) := by
  induction records with
  | nil =>
    intro acc src
    refine ⟨by simp [failedPortsOf, mergeDistinct_nil], by simp [failedPortsOf]⟩
  | cons r rest ih =>
    intro acc src
    rw [List.foldl_cons, failedPortsOf_cons]
    by_cases hf : failedState r = true
    · simp only [hf, if_true, Bool.true_and]
      by_cases hsrc : strCoalesce (getField r "id.orig_h") = src
      · rw [hsrc]
        simp only [beq_self_eq_true, reduceIte]
        obtain ⟨ih1, ih2⟩ := ih (addDistinct src (getField r "id.resp_p") acc) src
        refine ⟨?_, ?_⟩
        · rw [ih1, addDistinct_find_self, Option.getD_some, mergeDistinct_cons]
        · rw [ih2, addDistinct_find_self]
          simp
      · have hbeq : (strCoalesce (getField r "id.orig_h") == src) = false := by
          simpa using hsrc
        simp only [hbeq, Bool.false_eq_true, reduceIte]
        obtain ⟨ih1, ih2⟩ := ih
          (addDistinct (strCoalesce (getField r "id.orig_h")) (getField r "id.resp_p") acc) src
        rw [ih1, ih2, addDistinct_find_ne _ _ hsrc]
        exact ⟨rfl, Iff.rfl⟩
    · have hf' : failedState r = false := by simpa using hf
      simp only [hf', Bool.false_and, Bool.false_eq_true, reduceIte]
      exact ih acc src

theorem portGroups_keys_nodup (records : List ZRecord) :
    ((portGroups records).map Prod.fst).Nodup := by
  suffices h : ∀ acc : List (String × List (Option Value)), (acc.map Prod.fst).Nodup →
      ((records.foldl (fun acc r =>
        if failedState r then
          addDistinct (strCoalesce (getField r "id.orig_h")) (getField r "id.resp_p") acc
        else acc) acc).map Prod.fst).Nodup by
    exact h [] List.nodup_nil
  induction records with
  | nil => intro acc hacc; exact hacc
  | cons r rest ih =>
    intro acc hacc
    rw [List.foldl_cons]
    by_cases hf : failedState r = true
    · simp only [hf, if_true]
      exact ih _ (addDistinct_keys_nodup _ _ _ hacc)
    · have hf' : failedState r = false := by simpa using hf
      simp only [hf', Bool.false_eq_true, if_false]
      exact ih acc hacc

/-- C5. The port-scan detector reports a port_scan anomaly for a source iff
the set of distinct destination ports over that source's failed-state
(S0/REJ) records has size strictly greater than 50; every anomaly for that
source carries portsScanned equal to the distinct-port count and severity
high when that count exceeds 200, medium otherwise. -/
theorem claim_C5 (records : List ZRecord) (src : String) :
    ((∃ a ∈ detectPortScans records, a.sourceIp = src) ↔
      50 < ((failedPortsOf records src).dedup).length) ∧
    (∀ a ∈ detectPortScans records, a.sourceIp = src →
      a.portsScanned = ((failedPortsOf records src).dedup).length ∧
      a.severity = (if 200 < ((failedPortsOf records src).dedup).length
        then Severity.high else Severity.medium)) := by
  have haux := portGroups_aux records [] src
  have hfind : (assocFind src (portGroups records)).getD []
      = mergeDistinct [] (failedPortsOf records src) := by
    have := haux.1
    simpa [assocFind] using this
  have hnone : assocFind src (portGroups records) = none ↔
      failedPortsOf records src = [] := by
    have := haux.2
    simpa [assocFind] using this
  have hlen : ∀ vs, assocFind src (portGroups records) = some vs →
      vs.length = ((failedPortsOf records src).dedup).length := by
    intro vs hvs
    have : vs = mergeDistinct [] (failedPortsOf records src) := by
      rw [← hfind, hvs]
      rfl
    rw [this, mergeDistinct_nil_length]
  have hmem_iff : ∀ a, a ∈ detectPortScans records ↔
      ∃ sp ∈ portGroups records, (if 50 < sp.2.length then
        some { severity := if 200 < sp.2.length then Severity.high else Severity.medium
               description := sp.1 ++ " scanned " ++ natToStr sp.2.length ++ " ports across " ++
                 natToStr ((((targetGroups records).find? (fun p => p.1 == sp.1)).map
                   (fun p => p.2)).getD []).length ++ " hosts"
               sourceIp := sp.1
               portsScanned := sp.2.length
               uniqueTargets := ((((targetGroups records).find? (fun p => p.1 == sp.1)).map
                 (fun p => p.2)).getD []).length
               samplePorts := sp.2.take 20 } else none) = some a := by
    intro a
    exact List.mem_filterMap
  constructor
  · constructor
    · rintro ⟨a, ha, rfl⟩
      obtain ⟨sp, hsp, hif⟩ := (hmem_iff a).mp ha
      by_cases h50 : 50 < sp.2.length
      · rw [if_pos h50] at hif
        injection hif with hif
        have hsrc : sp.1 = a.sourceIp := by rw [← hif]
        have hfind2 : assocFind a.sourceIp (portGroups records) = some sp.2 := by
          rw [← hsrc]
          exact mem_assocFind_of_nodup (portGroups_keys_nodup records) hsp
        have hl := hlen sp.2 hfind2
        have hps : a.portsScanned = sp.2.length := by rw [← hif]
        omega
      · rw [if_neg h50] at hif
        cases hif
    · intro h50
      have hne : failedPortsOf records src ≠ [] := by
        intro he
        rw [he] at h50
        simp at h50
      obtain ⟨vs, hvs⟩ : ∃ vs, assocFind src (portGroups records) = some vs := by
        cases hv : assocFind src (portGroups records) with
        | none => exact absurd (hnone.mp hv) hne
        | some vs => exact ⟨vs, rfl⟩
      have hvl := hlen vs hvs
      have hmem : (src, vs) ∈ portGroups records := assocFind_some_mem hvs
      have h50' : 50 < vs.length := by omega
      refine ⟨{ severity := if 200 < vs.length then Severity.high else Severity.medium
                description := src ++ " scanned " ++ natToStr vs.length ++ " ports across " ++
                  natToStr ((((targetGroups records).find? (fun p => p.1 == src)).map
                    (fun p => p.2)).getD []).length ++ " hosts"
                sourceIp := src
                portsScanned := vs.length
                uniqueTargets := ((((targetGroups records).find? (fun p => p.1 == src)).map
                  (fun p => p.2)).getD []).length
                samplePorts := vs.take 20 }, ?_, rfl⟩
      apply (hmem_iff _).mpr
      exact ⟨(src, vs), hmem, by rw [if_pos h50']⟩
  · intro a ha hsrc
    obtain ⟨sp, hsp, hif⟩ := (hmem_iff a).mp ha
    by_cases h50 : 50 < sp.2.length
    · rw [if_pos h50] at hif
      injection hif with hif
      have hsrc2 : sp.1 = src := by rw [← hsrc, ← hif]
      have hfind2 : assocFind src (portGroups records) = some sp.2 := by
        rw [← hsrc2]
        exact mem_assocFind_of_nodup (portGroups_keys_nodup records) hsp
      have hl := hlen sp.2 hfind2
      constructor
      · have : a.portsScanned = sp.2.length := by rw [← hif]
        omega
      · have hsev : a.severity = if 200 < sp.2.length then Severity.high else Severity.medium := by
          rw [← hif]
        rw [hsev, hl]
    · rw [if_neg h50] at hif
      cases hif

set_option maxRecDepth 100000 in
theorem claim_C5_witness :
    ∃ a ∈ detectPortScans ((List.range 51).map (fun i =>
      [("id.orig_h", Value.str "10.0.0.9"), ("id.resp_p", Value.num (.fin (i : ℚ))),
       ("conn_state", Value.str "S0")])), a.sourceIp = "10.0.0.9" :=
  (claim_C5 _ "10.0.0.9").1.mpr (by decide)

theorem pow256_eq (n : Nat) : (256 : Nat) ^ n = 2 ^ (8 * n) := by
  rw [show (256 : Nat) = 2 ^ 8 from rfl, ← pow_mul]

theorem bytesVal_lt (l : List Nat) (h : ∀ b ∈ l, b < 256) :
    bytesVal l < 256 ^ l.length := by
  induction l with
  | nil => simp [bytesVal]
  | cons b rest ih =>
    have hb : b < 256 := h b (List.mem_cons_self _ _)
    have hr : bytesVal rest < 256 ^ rest.length :=
      ih (fun x hx => h x (List.mem_cons_of_mem _ hx))
    simp only [bytesVal, List.length_cons]
    calc b * 256 ^ rest.length + bytesVal rest
        < b * 256 ^ rest.length + 256 ^ rest.length := by omega
      _ = (b + 1) * 256 ^ rest.length := by ring
      _ ≤ 256 * 256 ^ rest.length := by
          exact Nat.mul_le_mul_right _ (by omega)
      _ = 256 ^ (rest.length + 1) := by ring

theorem land_mask (x t : Nat) (hx : x < 256) (ht : t ≤ 8) :
    x &&& (256 - 2 ^ t) = x / 2 ^ t * 2 ^ t := by
  have hmask : (256 : Nat) - 2 ^ t = (2 ^ (8 - t) - 1) * 2 ^ t := by
    have hp : 2 ^ (8 - t) * 2 ^ t = 2 ^ 8 := by
      rw [← pow_add]
      congr 1
      omega
    have h1 : (1 : Nat) ≤ 2 ^ (8 - t) := Nat.one_le_two_pow
    rw [Nat.sub_mul, hp, one_mul]
    norm_num
  apply Nat.eq_of_testBit_eq
  intro i
  rw [Nat.testBit_land, hmask]
  rw [show (2 ^ (8 - t) - 1) * 2 ^ t = (2 ^ (8 - t) - 1) <<< t from (Nat.shiftLeft_eq _ _).symm]
  rw [show x / 2 ^ t * 2 ^ t = (x >>> t) <<< t from by
    rw [Nat.shiftLeft_eq, Nat.shiftRight_eq_div_pow]]
  rw [Nat.testBit_shiftLeft, Nat.testBit_shiftLeft, Nat.testBit_two_pow_sub_one,
    Nat.testBit_shiftRight]
  by_cases hit : t ≤ i
  · have hge : decide (i ≥ t) = true := by simpa using hit
    rw [hge]
    simp only [Bool.true_and]
    rw [show t + (i - t) = i from by omega]
    by_cases h8 : i < 8
    · have hlt : i - t < 8 - t := by omega
      simp [hlt]
    · have h1 : x.testBit i = false := by
        apply Nat.testBit_lt_two_pow
        calc x < 256 := hx
          _ = 2 ^ 8 := rfl
          _ ≤ 2 ^ i := Nat.pow_le_pow_right (by omega) (by omega)
      have hlt : ¬ (i - t < 8 - t) := by omega
      simp [h1, hlt]
  · have hge : decide (i ≥ t) = false := by simpa using hit
    rw [hge]
    simp

theorem mul_add_eq_mul_add_iff (K a b a' b' : Nat) (hK : 0 < K) (ha : a' < K) (hb : b' < K) :
    a * K + a' = b * K + b' ↔ a = b ∧ a' = b' := by
  constructor
  · intro h
    have h1 : a = b := by
      have ha1 : (a * K + a') / K = a := by
        rw [Nat.add_comm, Nat.add_mul_div_right _ _ hK, Nat.div_eq_of_lt ha]
        omega
      have hb1 : (b * K + b') / K = b := by
        rw [Nat.add_comm, Nat.add_mul_div_right _ _ hK, Nat.div_eq_of_lt hb]
        omega
      rw [← ha1, ← hb1, h]
    refine ⟨h1, ?_⟩
    subst h1
    omega
  · rintro ⟨rfl, rfl⟩
    rfl

theorem high_div (x A m s : Nat) (hs : s ≤ m) (hA : A < 2 ^ m) :
    (x * 2 ^ m + A) / 2 ^ s = x * 2 ^ (m - s) + A / 2 ^ s := by
  have hsplit : x * 2 ^ m = x * 2 ^ (m - s) * 2 ^ s := by
    rw [mul_assoc, ← pow_add]
    congr 2
    omega
  rw [hsplit, Nat.add_comm, Nat.add_mul_div_right _ _ (Nat.pos_pow_of_pos s (by omega))]
  omega

theorem cidrLoop_cons_eq (r : Int) (x y : Nat) (rest : List (Nat × Nat)) :
    cidrLoop (some r) ((x, y) :: rest) =
      if 8 ≤ r then (x == y) && cidrLoop (some (r - 8)) rest
      else if 0 < r then
        (x &&& (256 - 2 ^ (8 - r).toNat) == y &&& (256 - 2 ^ (8 - r).toNat))
      else true := rfl

theorem cidrLoop_iff (pairs : List (Nat × Nat)) :
    ∀ r : Int, 0 ≤ r → r ≤ 8 * pairs.length →
    (∀ p ∈ pairs, p.1 < 256 ∧ p.2 < 256) →
    (cidrLoop (some r) pairs = true ↔
      bytesVal (pairs.map Prod.fst) / 2 ^ (8 * pairs.length - r.toNat) =
      bytesVal (pairs.map Prod.snd) / 2 ^ (8 * pairs.length - r.toNat)) := by
  induction pairs with
  | nil =>
    intro r h0 h8 _
    have : r = 0 := by
      simp only [List.length_nil, Nat.mul_zero, Nat.cast_zero] at h8
      omega
    subst this
    simp [cidrLoop, bytesVal]
  | cons p rest ih =>
    intro r h0 h8 hb
    obtain ⟨x, y⟩ := p
    have hx : x < 256 := (hb (x, y) (List.mem_cons_self _ _)).1
    have hy : y < 256 := (hb (x, y) (List.mem_cons_self _ _)).2
    have hbr : ∀ q ∈ rest, q.1 < 256 ∧ q.2 < 256 :=
      fun q hq => hb q (List.mem_cons_of_mem _ hq)
    have hAlt : bytesVal (rest.map Prod.fst) < 2 ^ (8 * rest.length) := by
      rw [← pow256_eq, ← List.length_map rest Prod.fst]
      exact bytesVal_lt _ (by
        intro b hbm
        obtain ⟨q, hq, rfl⟩ := List.mem_map.mp hbm
        exact (hbr q hq).1)
    have hBlt : bytesVal (rest.map Prod.snd) < 2 ^ (8 * rest.length) := by
      rw [← pow256_eq, ← List.length_map rest Prod.snd]
      exact bytesVal_lt _ (by
        intro b hbm
        obtain ⟨q, hq, rfl⟩ := List.mem_map.mp hbm
        exact (hbr q hq).2)
    have hval1 : bytesVal (((x, y) :: rest).map Prod.fst) =
        x * 2 ^ (8 * rest.length) + bytesVal (rest.map Prod.fst) := by
      simp only [List.map_cons, bytesVal, List.length_map]
      rw [pow256_eq]
    have hval2 : bytesVal (((x, y) :: rest).map Prod.snd) =
        y * 2 ^ (8 * rest.length) + bytesVal (rest.map Prod.snd) := by
      simp only [List.map_cons, bytesVal, List.length_map]
      rw [pow256_eq]
    rw [cidrLoop_cons_eq, hval1, hval2]
    by_cases hr8 : 8 ≤ r
    · rw [if_pos hr8]
      have hih := ih (r - 8) (by omega) (by simp only [List.length_cons] at h8; omega) hbr
      have hsm : 8 * rest.length - (r - 8).toNat = 8 * ((x, y) :: rest).length - r.toNat := by
        simp only [List.length_cons]
        omega
      have hsle : 8 * ((x, y) :: rest).length - r.toNat ≤ 8 * rest.length := by
        simp only [List.length_cons]
        omega
      set s := 8 * ((x, y) :: rest).length - r.toNat with hs
      have hdiv1 : bytesVal (rest.map Prod.fst) / 2 ^ s < 2 ^ (8 * rest.length - s) := by
        rw [Nat.div_lt_iff_lt_mul (Nat.pos_pow_of_pos s (by omega)), ← pow_add]
        rw [show 8 * rest.length - s + s = 8 * rest.length from by omega]
        exact hAlt
      have hdiv2 : bytesVal (rest.map Prod.snd) / 2 ^ s < 2 ^ (8 * rest.length - s) := by
        rw [Nat.div_lt_iff_lt_mul (Nat.pos_pow_of_pos s (by omega)), ← pow_add]
        rw [show 8 * rest.length - s + s = 8 * rest.length from by omega]
        exact hBlt
      rw [high_div x _ _ s hsle hAlt, high_div y _ _ s hsle hBlt]
      rw [mul_add_eq_mul_add_iff _ x y _ _
        (Nat.pos_pow_of_pos _ (by omega)) hdiv1 hdiv2]
      rw [Bool.and_eq_true, beq_iff_eq, hih, hsm]
    · rw [if_neg hr8]
      by_cases hr0 : 0 < r
      · rw [if_pos hr0]
        have ht : (8 - r).toNat ≤ 8 := by omega
        set t := (8 - r).toNat with htdef
        have hst : 8 * ((x, y) :: rest).length - r.toNat = 8 * rest.length + t := by
          simp only [List.length_cons]
          omega
        rw [hst]
        have hdiv1 : (x * 2 ^ (8 * rest.length) + bytesVal (rest.map Prod.fst)) /
            2 ^ (8 * rest.length + t) = x / 2 ^ t := by
          rw [pow_add, ← Nat.div_div_eq_div_mul,
            high_div x _ _ (8 * rest.length) le_rfl hAlt]
          rw [Nat.sub_self, pow_zero, mul_one, Nat.div_eq_of_lt hAlt]
          simp
        have hdiv2 : (y * 2 ^ (8 * rest.length) + bytesVal (rest.map Prod.snd)) /
            2 ^ (8 * rest.length + t) = y / 2 ^ t := by
          rw [pow_add, ← Nat.div_div_eq_div_mul,
            high_div y _ _ (8 * rest.length) le_rfl hBlt]
          rw [Nat.sub_self, pow_zero, mul_one, Nat.div_eq_of_lt hBlt]
          simp
        rw [hdiv1, hdiv2, beq_iff_eq, land_mask x t hx ht, land_mask y t hy ht]
        constructor
        · intro h
          exact Nat.eq_of_mul_eq_mul_right (Nat.pos_pow_of_pos t (by omega)) h
        · intro h
          rw [h]
      · rw [if_neg hr0]
        have hr : r = 0 := by omega
        subst hr
        have hlt1 : x * 2 ^ (8 * rest.length) + bytesVal (rest.map Prod.fst) <
            2 ^ (8 * ((x, y) :: rest).length - Int.toNat 0) := by
          simp only [List.length_cons, Int.toNat_zero, Nat.sub_zero]
          have : (x + 1) * 2 ^ (8 * rest.length) ≤ 256 * 2 ^ (8 * rest.length) :=
            Nat.mul_le_mul_right _ (by omega)
          calc x * 2 ^ (8 * rest.length) + bytesVal (rest.map Prod.fst)
              < (x + 1) * 2 ^ (8 * rest.length) := by nlinarith [hAlt]
            _ ≤ 256 * 2 ^ (8 * rest.length) := this
            _ = 2 ^ (8 * (rest.length + 1)) := by
                rw [show 8 * (rest.length + 1) = 8 + 8 * rest.length from by ring, pow_add]
                norm_num
        have hlt2 : y * 2 ^ (8 * rest.length) + bytesVal (rest.map Prod.snd) <
            2 ^ (8 * ((x, y) :: rest).length - Int.toNat 0) := by
          simp only [List.length_cons, Int.toNat_zero, Nat.sub_zero]
          have : (y + 1) * 2 ^ (8 * rest.length) ≤ 256 * 2 ^ (8 * rest.length) :=
            Nat.mul_le_mul_right _ (by omega)
          calc y * 2 ^ (8 * rest.length) + bytesVal (rest.map Prod.snd)
              < (y + 1) * 2 ^ (8 * rest.length) := by nlinarith [hBlt]
            _ ≤ 256 * 2 ^ (8 * rest.length) := this
            _ = 2 ^ (8 * (rest.length + 1)) := by
                rw [show 8 * (rest.length + 1) = 8 + 8 * rest.length from by ring, pow_add]
                norm_num
        rw [Nat.div_eq_of_lt hlt1, Nat.div_eq_of_lt hlt2]
        simp

theorem groupToBytes_spec (gs : List (List Char)) :
    ∀ bs, groupToBytes gs = some bs → bs.length = 2 * gs.length ∧ ∀ b ∈ bs, b < 256 := by
  induction gs with
  | nil =>
    intro bs h
    injection h with h
    subst h
    simp
  | cons g gs ih =>
    intro bs h
    unfold groupToBytes at h
    cases hp : parseIntJs 16 g with
    | none => rw [hp] at h; cases h
    | some v =>
      cases hr : groupToBytes gs with
      | none => rw [hp, hr] at h; cases h
      | some rest =>
        rw [hp, hr] at h
        injection h with h
        subst h
        obtain ⟨hlen, hb⟩ := ih rest hr
        refine ⟨by simp [hlen]; ring, ?_⟩
        intro b hbm
        rcases List.mem_cons.mp hbm with rfl | hbm
        · exact Nat.mod_lt _ (by omega)
        rcases List.mem_cons.mp hbm with rfl | hbm
        · exact Nat.mod_lt _ (by omega)
        · exact hb b hbm

theorem ipv6ToBytes_spec {l : List Char} {bs : List Nat} (h : ipv6ToBytes l = some bs) :
    bs.length = 16 ∧ ∀ b ∈ bs, b < 256 := by
  unfold ipv6ToBytes at h
  cases he : expandIpv6 l with
  | none => rw [he] at h; cases h
  | some e =>
    rw [he] at h
    have h' : (if (splitOnChar ':' e).length ≠ 8 then none
        else groupToBytes (splitOnChar ':' e)) = some bs := h
    by_cases hlen : (splitOnChar ':' e).length ≠ 8
    · rw [if_pos hlen] at h'; cases h'
    · rw [if_neg hlen] at h'
      obtain ⟨h1, h2⟩ := groupToBytes_spec _ bs h'
      push_neg at hlen
      rw [hlen] at h1
      exact ⟨h1, h2⟩

/-- C1 counterexample. The claim says the cidr filter operator evaluates to
true for a record holding a valid IPv6 address and a containing IPv6 CIDR;
but `applyFilter` calls the engine's IPv4-only `matchCidr`, which fails the
IPv4 parse and returns false. The filters module's IPv6-aware `matchCidr`
confirms on the same input that the address is well-formed and contained. -/
theorem claim_C1_counterexample :
    applyFilter [("id.orig_h", Value.str "2001:db8::1")]
      { field := "id.orig_h", op := FilterOp.cidr, value := Value.str "2001:db8::/32" } = false ∧
    matchCidrFilters "2001:db8::1" "2001:db8::/32" = true := by
  constructor
  · decide
  · decide

/-- C1 amended. The IPv6 network containment test lives in the filters
module: with both addresses well-formed (a single `::` elision expanded to 8
groups) and a prefix between 0 and 128, `matchCidr6` returns true exactly
when the first prefix bits of the two 128-bit address values agree
(byte-by-byte comparison with partial-byte masking); a malformed address or
network gives false, never an error, and the filters-module `matchCidr`
routes any input containing `:` to this test. The query engine's cidr
filter operator supports only IPv4 and returns false whenever the address
fails the IPv4 parse — in particular for every IPv6 address. -/
theorem claim_C1_amended :
    (∀ (ip net : String) (pfx : Int) (a b : List Nat),
      ipv6ToBytes ip.toList = some a → ipv6ToBytes net.toList = some b →
      0 ≤ pfx → pfx ≤ 128 →
      (matchCidr6 ip net (some pfx) = true ↔
        bytesVal a / 2 ^ (128 - pfx.toNat) = bytesVal b / 2 ^ (128 - pfx.toNat))) ∧
    (∀ (ip net : String) (pfx : Option Int),
      ipv6ToBytes ip.toList = none ∨ ipv6ToBytes net.toList = none →
      matchCidr6 ip net pfx = false) ∧
    (∀ (ip cidr : String),
      hasChar '/' cidr.toList = true →
      (hasChar ':' ip.toList || hasChar ':' ((splitOnChar '/' cidr.toList).getD 0 [])) = true →
      matchCidrFilters ip cidr =
        matchCidr6 ip ⟨(splitOnChar '/' cidr.toList).getD 0 []⟩
          (parseIntJs 10 ((splitOnChar '/' cidr.toList).getD 1 []))) ∧
    (∀ (ip cidr : String),
      hasChar '/' cidr.toList = true → ipv4ToNum ip.toList = none →
      matchCidrEngine ip cidr = false) := by
  refine ⟨?_, ?_, ?_, ?_⟩
  · intro ip net pfx a b ha hb h0 h128
    obtain ⟨hal, hab⟩ := ipv6ToBytes_spec ha
    obtain ⟨hbl, hbb⟩ := ipv6ToBytes_spec hb
    unfold matchCidr6
    rw [ha, hb]
    have hzlen : (a.zip b).length = 16 := by
      rw [List.length_zip, hal, hbl]
      rfl
    have hmf : (a.zip b).map Prod.fst = a :=
      List.map_fst_zip a b (by rw [hal, hbl])
    have hms : (a.zip b).map Prod.snd = b :=
      List.map_snd_zip a b (by rw [hal, hbl])
    have hiff := cidrLoop_iff (a.zip b) pfx h0
      (by rw [hzlen]; exact_mod_cast h128)
      (by
        intro p hp
        obtain ⟨hp1, hp2⟩ := List.of_mem_zip hp
        exact ⟨hab _ hp1, hbb _ hp2⟩)
    rw [hiff, hmf, hms, hzlen]
  · intro ip net pfx h
    unfold matchCidr6
    rcases h with h | h
    · rw [h]
    · rw [h]
      cases ipv6ToBytes ip.toList <;> rfl
  · intro ip cidr hslash hcolon
    unfold matchCidrFilters
    simp only [hslash, hcolon, not_true, if_false, if_true, reduceIte]
  · intro ip cidr hslash hnone
    unfold matchCidrEngine
    simp only [hslash, hnone, not_true, if_false, reduceIte]

set_option maxRecDepth 40000 in
theorem claim_C1_amended_witness :
    (matchCidr6 "2001:db8::1" "2001:db8::" (some 32) = true ↔
      bytesVal [32, 1, 13, 184, 0, 0, 0, 0, 0, 0, 0, 0, 0, 0, 0, 1] / 2 ^ 96 =
      bytesVal [32, 1, 13, 184, 0, 0, 0, 0, 0, 0, 0, 0, 0, 0, 0, 0] / 2 ^ 96) ∧
    matchCidrFilters "2001:db8::1" "2001:db8::/32" =
      matchCidr6 "2001:db8::1" "2001:db8::" (parseIntJs 10 ['3', '2']) :=
  ⟨claim_C1_amended.1 "2001:db8::1" "2001:db8::" 32
      [32, 1, 13, 184, 0, 0, 0, 0, 0, 0, 0, 0, 0, 0, 0, 1]
      [32, 1, 13, 184, 0, 0, 0, 0, 0, 0, 0, 0, 0, 0, 0, 0]
      (by decide) (by decide) (by decide) (by decide),
   by
     have h := claim_C1_amended.2.2.1 "2001:db8::1" "2001:db8::/32" (by decide) (by decide)
     simpa using h⟩

theorem pushTs_find_self (k : String) (t : JsNum) (l : List (String × List JsNum)) :
    assocFind k (pushTs k t l) = some ((assocFind k l).getD [] ++ [t]) := by
  induction l with
  | nil => simp [pushTs, assocFind_cons, assocFind]
  | cons p rest ih =>
    obtain ⟨k', vs⟩ := p
    by_cases h : k' = k
    · subst h
      simp [pushTs, assocFind_cons]
    · simp only [pushTs, if_neg h, assocFind_cons, ih]

theorem pushTs_find_ne (k0 k : String) (hk : k0 ≠ k) (t : JsNum)
    (l : List (String × List JsNum)) :
    assocFind k (pushTs k0 t l) = assocFind k l := by
  induction l with
  | nil => simp [pushTs, assocFind_cons, assocFind, hk]
  | cons p rest ih =>
    obtain ⟨k', vs⟩ := p
    by_cases h : k' = k0
    · subst h
      simp [pushTs, assocFind_cons, if_neg hk]
    · simp only [pushTs, if_neg h, assocFind_cons, ih]

theorem pushTs_keys (k : String) (t : JsNum) (l : List (String × List JsNum)) :
    (pushTs k t l).map Prod.fst =
      if k ∈ l.map Prod.fst then l.map Prod.fst else l.map Prod.fst ++ [k] := by
  induction l with
  | nil => simp [pushTs]
  | cons p rest ih =>
    obtain ⟨k', vs⟩ := p
    by_cases h : k' = k
    · subst h
      simp [pushTs]
    · simp only [pushTs, if_neg h, List.map_cons, ih, List.mem_cons]
      by_cases hm : k ∈ rest.map Prod.fst
      · simp [hm, Ne.symm h]
      · simp [hm, Ne.symm h]

theorem pushTs_keys_nodup (k : String) (t : JsNum) (l : List (String × List JsNum))
    (h : (l.map Prod.fst).Nodup) : ((pushTs k t l).map Prod.fst).Nodup := by
  rw [pushTs_keys]
  by_cases hm : k ∈ l.map Prod.fst
  · simpa [hm] using h
  · rw [if_neg hm, List.nodup_append]
    exact ⟨h, List.nodup_singleton k, by simpa using hm⟩

theorem keyStream_cons (r : ZRecord) (rest : List ZRecord) (key : String) :
    keyStream (r :: rest) key =
      if (beaconCollected r && (beaconKey r == key)) = true
      then beaconTs r :: keyStream rest key
      else keyStream rest key := by
  simp only [keyStream, List.filter_cons]
  split
  · simp
  · rfl

theorem beaconPairs_aux (records : List ZRecord) :
    ∀ (acc : List (String × List JsNum)) (key : String),
    ((assocFind key (records.foldl (fun acc r =>
        if beaconCollected r then pushTs (beaconKey r) (beaconTs r) acc else acc) acc)).getD []
      = (assocFind key acc).getD [] ++ keyStream records key) ∧
    (assocFind key (records.foldl (fun acc r =>
        if beaconCollected r then pushTs (beaconKey r) (beaconTs r) acc else acc) acc) = none ↔
      assocFind key acc = none ∧ keyStream records key = []) := by
  induction records with
  | nil =>
    intro acc key
    refine ⟨by simp [keyStream], by simp [keyStream]⟩
  | cons r rest ih =>
    intro acc key
    rw [List.foldl_cons, keyStream_cons]
    by_cases hc : beaconCollected r = true
    · simp only [hc, if_true, Bool.true_and]
      by_cases hkey : beaconKey r = key
      · rw [hkey]
        simp only [beq_self_eq_true, reduceIte]
        obtain ⟨ih1, ih2⟩ := ih (pushTs key (beaconTs r) acc) key
        refine ⟨?_, ?_⟩
        · rw [ih1, pushTs_find_self, Option.getD_some, List.append_assoc]
          rfl
        · rw [ih2, pushTs_find_self]
          simp
      · have hbeq : (beaconKey r == key) = false := by simpa using hkey
        simp only [hbeq, Bool.false_eq_true, reduceIte]
        obtain ⟨ih1, ih2⟩ := ih (pushTs (beaconKey r) (beaconTs r) acc) key
        rw [ih1, ih2, pushTs_find_ne _ _ hkey]
        exact ⟨rfl, Iff.rfl⟩
    · have hc' : beaconCollected r = false := by simpa using hc
      simp only [hc', Bool.false_and, Bool.false_eq_true, reduceIte]
      exact ih acc key

theorem beaconPairs_keys_nodup (records : List ZRecord) :
    ((beaconPairs records).map Prod.fst).Nodup := by
  suffices h : ∀ acc : List (String × List JsNum), (acc.map Prod.fst).Nodup →
      ((records.foldl (fun acc r =>
        if beaconCollected r then pushTs (beaconKey r) (beaconTs r) acc else acc) acc).map
        Prod.fst).Nodup by
    exact h [] List.nodup_nil
  induction records with
  | nil => intro acc hacc; exact hacc
  | cons r rest ih =>
    intro acc hacc
    rw [List.foldl_cons]
    by_cases hc : beaconCollected r = true
    · simp only [hc, if_true]
      exact ih _ (pushTs_keys_nodup _ _ _ hacc)
    · have hc' : beaconCollected r = false := by simpa using hc
      simp only [hc', Bool.false_eq_true, reduceIte]
      exact ih acc hacc

theorem beaconPairs_keys_origin (records : List ZRecord) :
    ∀ p ∈ beaconPairs records, ∃ r ∈ records, beaconCollected r = true ∧ beaconKey r = p.1 := by
  suffices h : ∀ acc : List (String × List JsNum), ∀ p ∈ records.foldl (fun acc r =>
      if beaconCollected r then pushTs (beaconKey r) (beaconTs r) acc else acc) acc,
      p ∈ acc ∨ ∃ r ∈ records, beaconCollected r = true ∧ beaconKey r = p.1 by
    intro p hp
    rcases h [] p hp with hm | hm
    · cases hm
    · exact hm
  have hpush : ∀ (k : String) (t : JsNum) (l : List (String × List JsNum)) (p : String × List JsNum),
      p ∈ pushTs k t l → p.1 = k ∨ p ∈ l := by
    intro k t l
    induction l with
    | nil =>
      intro p hp
      simp only [pushTs, List.mem_singleton] at hp
      subst hp
      exact Or.inl rfl
    | cons q rest ih =>
      intro p hp
      obtain ⟨k', vs⟩ := q
      by_cases h : k' = k
      · subst h
        simp only [pushTs, if_pos rfl] at hp
        rcases List.mem_cons.mp hp with heq | hp2
        · exact Or.inl (by rw [heq])
        · exact Or.inr (List.mem_cons_of_mem _ hp2)
      · simp only [pushTs, if_neg h, List.mem_cons] at hp
        rcases hp with rfl | hp
        · exact Or.inr (List.mem_cons_self _ _)
        · rcases ih p hp with h1 | h1
          · exact Or.inl h1
          · exact Or.inr (List.mem_cons_of_mem _ h1)
  induction records with
  | nil =>
    intro acc p hp
    exact Or.inl hp
  | cons r rest ih =>
    intro acc p hp
    rw [List.foldl_cons] at hp
    by_cases hc : beaconCollected r = true
    · rw [if_pos hc] at hp
      rcases ih (pushTs (beaconKey r) (beaconTs r) acc) p hp with hm | ⟨r', hr', h1, h2⟩
      · rcases hpush _ _ _ _ hm with h1 | h1
        · exact Or.inr ⟨r, List.mem_cons_self _ _, hc, h1.symm⟩
        · exact Or.inl h1
      · exact Or.inr ⟨r', List.mem_cons_of_mem _ hr', h1, h2⟩
    · rw [if_neg hc] at hp
      rcases ih acc p hp with hm | ⟨r', hr', h1, h2⟩
      · exact Or.inl hm
      · exact Or.inr ⟨r', List.mem_cons_of_mem _ hr', h1, h2⟩

theorem mk_toList (s : String) : (⟨s.toList⟩ : String) = s := rfl

theorem toList_append (s t : String) : (s ++ t).toList = s.toList ++ t.toList := by
  simp [String.toList]

theorem beaconKey_toList (r : ZRecord) :
    (beaconKey r).toList = (beaconSrcStr r).toList ++ '|' ::
      ((beaconDstStr r).toList ++ '|' :: (beaconPortStr r).toList) := by
  unfold beaconKey
  rw [toList_append, toList_append, toList_append, toList_append]
  simp [String.toList]

theorem beaconKey_split (r : ZRecord)
    (h1 : '|' ∉ (beaconSrcStr r).toList) (h2 : '|' ∉ (beaconDstStr r).toList)
    (h3 : '|' ∉ (beaconPortStr r).toList) :
    splitOnChar '|' (beaconKey r).toList =
      [(beaconSrcStr r).toList, (beaconDstStr r).toList, (beaconPortStr r).toList] := by
  rw [beaconKey_toList, splitOnChar_append _ h1, splitOnChar_append _ h2,
    splitOnChar_of_not_mem h3]

theorem beaconKey_eq_iff (r r' : ZRecord)
    (ha : '|' ∉ (beaconSrcStr r).toList) (hb : '|' ∉ (beaconDstStr r).toList)
    (hc : '|' ∉ (beaconPortStr r).toList)
    (ha' : '|' ∉ (beaconSrcStr r').toList) (hb' : '|' ∉ (beaconDstStr r').toList)
    (hc' : '|' ∉ (beaconPortStr r').toList) :
    beaconKey r = beaconKey r' ↔
      beaconSrcStr r = beaconSrcStr r' ∧ beaconDstStr r = beaconDstStr r' ∧
      beaconPortStr r = beaconPortStr r' := by
  constructor
  · intro h
    have hsplit : splitOnChar '|' (beaconKey r).toList = splitOnChar '|' (beaconKey r').toList := by
      rw [h]
    rw [beaconKey_split r ha hb hc, beaconKey_split r' ha' hb' hc'] at hsplit
    injection hsplit with e1 hsplit
    injection hsplit with e2 hsplit
    injection hsplit with e3 _
    refine ⟨?_, ?_, ?_⟩
    · rw [← mk_toList (beaconSrcStr r), e1, mk_toList]
    · rw [← mk_toList (beaconDstStr r), e2, mk_toList]
    · rw [← mk_toList (beaconPortStr r), e3, mk_toList]
  · intro ⟨e1, e2, e3⟩
    unfold beaconKey
    rw [e1, e2, e3]

theorem keyStream_eq_tripleStream (records : List ZRecord) (r0 : ZRecord)
    (H1 : ∀ r ∈ records, '|' ∉ (beaconSrcStr r).toList ∧ '|' ∉ (beaconDstStr r).toList ∧
      '|' ∉ (beaconPortStr r).toList)
    (ha : '|' ∉ (beaconSrcStr r0).toList) (hb : '|' ∉ (beaconDstStr r0).toList)
    (hc : '|' ∉ (beaconPortStr r0).toList) :
    keyStream records (beaconKey r0) =
      tripleStream records (beaconSrcStr r0) (beaconDstStr r0) (beaconPortStr r0) := by
  unfold keyStream tripleStream
  congr 1
  apply List.filter_congr
  intro r hr
  obtain ⟨h1, h2, h3⟩ := H1 r hr
  cases hcol : beaconCollected r with
  | false => simp
  | true =>
    simp only [Bool.true_and]
    rw [Bool.eq_iff_iff]
    simp only [beq_iff_eq, Bool.and_eq_true]
    rw [beaconKey_eq_iff r r0 h1 h2 h3 ha hb hc]
    tauto

theorem mem_keyStream {records : List ZRecord} {key : String} {x : JsNum}
    (h : x ∈ keyStream records key) :
    ∃ r ∈ records, beaconCollected r = true ∧ x = beaconTs r := by
  unfold keyStream at h
  obtain ⟨r, hr, rfl⟩ := List.mem_map.mp h
  have hm := List.of_mem_filter hr
  simp only [Bool.and_eq_true] at hm
  exact ⟨r, List.mem_of_mem_filter hr, hm.1, rfl⟩

theorem collected_ts {r : ZRecord} (h : beaconCollected r = true) :
    ∃ v, getField r "ts" = some v ∧ v.truthy = true := by
  unfold beaconCollected at h
  simp only [Bool.and_eq_true] at h
  cases hv : getField r "ts" with
  | none => rw [hv] at h; exact absurd h.2 (by simp)
  | some v => rw [hv] at h; exact ⟨v, rfl, h.2⟩

theorem beaconTs_fin {records : List ZRecord} {r : ZRecord}
    (H2 : ∀ r ∈ records, ∀ v, getField r "ts" = some v → ∃ q : ℚ, v = Value.num (.fin q))
    (hr : r ∈ records) (hc : beaconCollected r = true) :
    ∃ q : ℚ, beaconTs r = .fin q := by
  obtain ⟨v, hv, _⟩ := collected_ts hc
  obtain ⟨q, rfl⟩ := H2 r hr v hv
  refine ⟨q, ?_⟩
  unfold beaconTs
  rw [hv]
  rfl

theorem sub_fin (p q : ℚ) : (JsNum.fin p).sub (.fin q) = .fin (p - q) := by
  show JsNum.fin (p + -q) = .fin (p - q)
  rw [← sub_eq_add_neg]

theorem leJs_fin (p q : ℚ) : leJs (.fin p) (.fin q) = decide (p ≤ q) := by
  unfold leJs
  rw [sub_fin]
  by_cases h : p ≤ q
  · have h2 : ¬ (0 < p - q) := by linarith
    simp [JsNum.posb, h, h2]
  · have h2 : 0 < p - q := by
      rw [not_le] at h
      linarith
    simp [JsNum.posb, h, h2]

theorem pairwise_insertSorted_tot (P : α → Prop) (R : α → α → Prop) (le : α → α → Bool)
    (hle : ∀ x y, P x → P y → le x y = true → R x y)
    (hnle : ∀ x y, P x → P y → le x y = false → R y x)
    (htrans : ∀ x y z, R x y → R y z → R x z)
    (a : α) (l : List α) (hPa : P a) (hPl : ∀ x ∈ l, P x) (hl : l.Pairwise R) :
    (insertSorted le a l).Pairwise R := by
  induction l with
  | nil => exact List.pairwise_singleton _ _
  | cons b bs ih =>
    rw [List.pairwise_cons] at hl
    obtain ⟨hb, hbs⟩ := hl
    have hPb : P b := hPl b (List.mem_cons_self _ _)
    have hPbs : ∀ x ∈ bs, P x := fun x hx => hPl x (List.mem_cons_of_mem _ hx)
    simp only [insertSorted]
    by_cases hab : le a b = true
    · rw [if_pos hab, List.pairwise_cons]
      have hRab : R a b := hle a b hPa hPb hab
      refine ⟨?_, List.pairwise_cons.mpr ⟨hb, hbs⟩⟩
      intro y hy
      rcases List.mem_cons.mp hy with rfl | hy
      · exact hRab
      · exact htrans a b y hRab (hb y hy)
    · rw [if_neg hab, List.pairwise_cons]
      refine ⟨?_, ih hPbs hbs⟩
      intro y hy
      rcases mem_insertSorted.mp hy with rfl | hy
      · exact hnle y b hPa hPb (by simpa using hab)
      · exact hb y hy

theorem pairwise_sortJs_tot (P : α → Prop) (R : α → α → Prop) (le : α → α → Bool)
    (hle : ∀ x y, P x → P y → le x y = true → R x y)
    (hnle : ∀ x y, P x → P y → le x y = false → R y x)
    (htrans : ∀ x y z, R x y → R y z → R x z)
    (l : List α) (hPl : ∀ x ∈ l, P x) :
    (sortJs le l).Pairwise R := by
  induction l with
  | nil => exact List.Pairwise.nil
  | cons x xs ih =>
    have hPx : P x := hPl x (List.mem_cons_self _ _)
    have hPxs : ∀ y ∈ xs, P y := fun y hy => hPl y (List.mem_cons_of_mem _ hy)
    exact pairwise_insertSorted_tot P R le hle hnle htrans x (sortJs le xs) hPx
      (fun y hy => hPxs y (mem_sortJs.mp hy)) (ih hPxs)

theorem sorted_fins (l : List JsNum) (h : ∀ x ∈ l, ∃ q : ℚ, x = .fin q) :
    (sortJs leJs l).Pairwise finLe := by
  apply pairwise_sortJs_tot (fun x => ∃ q : ℚ, x = .fin q) finLe leJs _ _ _ l h
  · intro x y ⟨p, hp⟩ ⟨q, hq⟩ hxy
    subst hp
    subst hq
    rw [leJs_fin] at hxy
    exact ⟨p, q, rfl, rfl, by simpa using hxy⟩
  · intro x y ⟨p, hp⟩ ⟨q, hq⟩ hxy
    subst hp
    subst hq
    rw [leJs_fin] at hxy
    exact ⟨q, p, rfl, rfl, by simp at hxy; linarith⟩
  · intro x y z ⟨p, q, hx, hy, hpq⟩ ⟨q', z', hy', hz, hqz⟩
    refine ⟨p, z', hx, hz, ?_⟩
    rw [hy] at hy'
    injection hy' with e
    subst e
    linarith

theorem diffsOf_fin_nonneg (l : List JsNum)
    (hfin : ∀ x ∈ l, ∃ q : ℚ, x = .fin q) (hsort : l.Pairwise finLe) :
    ∀ d ∈ diffsOf l, ∃ q : ℚ, d = .fin q ∧ 0 ≤ q := by
  induction l with
  | nil => intro d hd; cases hd
  | cons a rest ih =>
    cases rest with
    | nil => intro d hd; cases hd
    | cons b rest2 =>
      intro d hd
      rw [show diffsOf (a :: b :: rest2) = (b.sub a) :: diffsOf (b :: rest2) from rfl] at hd
      rw [List.pairwise_cons] at hsort
      rcases List.mem_cons.mp hd with rfl | hd
      · obtain ⟨p, q, ha, hb, hpq⟩ := hsort.1 b (List.mem_cons_self _ _)
        subst ha
        subst hb
        exact ⟨q - p, sub_fin q p, by linarith⟩
      · exact ih (fun x hx => hfin x (List.mem_cons_of_mem _ hx)) hsort.2 d hd

theorem foldl_add_fin (l : List JsNum) :
    ∀ acc : ℚ, (∀ x ∈ l, ∃ q : ℚ, x = .fin q ∧ 0 ≤ q) →
    ∃ s : ℚ, l.foldl JsNum.add (.fin acc) = .fin s ∧ acc ≤ s := by
  induction l with
  | nil => intro acc _; exact ⟨acc, rfl, le_refl _⟩
  | cons x rest ih =>
    intro acc h
    obtain ⟨q, hq, hq0⟩ := h x (List.mem_cons_self _ _)
    subst hq
    rw [List.foldl_cons]
    obtain ⟨s, hs, hacc⟩ := ih (acc + q) (fun y hy => h y (List.mem_cons_of_mem _ hy))
    exact ⟨s, hs, by linarith⟩

theorem foldl_var_fin (l : List JsNum) (m : ℚ) :
    ∀ acc : ℚ, (∀ x ∈ l, ∃ q : ℚ, x = .fin q) →
    ∃ s : ℚ, l.foldl (fun (s i : JsNum) => s.add ((i.sub (.fin m)).mul (i.sub (.fin m))))
      (.fin acc) = .fin s ∧ acc ≤ s := by
  induction l with
  | nil => intro acc _; exact ⟨acc, rfl, le_refl _⟩
  | cons x rest ih =>
    intro acc h
    obtain ⟨q, hq⟩ := h x (List.mem_cons_self _ _)
    subst hq
    rw [List.foldl_cons]
    have hstep : (JsNum.fin acc).add (((JsNum.fin q).sub (.fin m)).mul
        ((JsNum.fin q).sub (.fin m))) = .fin (acc + (q - m) * (q - m)) := by
      rw [sub_fin]
      rfl
    rw [hstep]
    obtain ⟨s, hs, hacc⟩ := ih (acc + (q - m) * (q - m)) (fun y hy => h y (List.mem_cons_of_mem _ hy))
    refine ⟨s, hs, ?_⟩
    nlinarith [sq_nonneg (q - m)]

theorem meanJs_fin {l : List JsNum}
    (h : ∀ x ∈ l, ∃ q : ℚ, x = .fin q ∧ 0 ≤ q) :
    ∃ m : ℚ, meanJs l = .fin m ∧ 0 ≤ m := by
  obtain ⟨s, hs, hacc⟩ := foldl_add_fin l 0 h
  unfold meanJs
  rw [hs]
  refine ⟨s / l.length, rfl, ?_⟩
  apply div_nonneg (by linarith)
  exact_mod_cast Nat.zero_le _

theorem varJs_fin {l : List JsNum} {m : ℚ} (hmean : meanJs l = .fin m)
    (h : ∀ x ∈ l, ∃ q : ℚ, x = .fin q) :
    ∃ v : ℚ, varJs l = .fin v ∧ 0 ≤ v := by
  unfold varJs
  rw [hmean]
  obtain ⟨s, hs, hacc⟩ := foldl_var_fin l m 0 h
  rw [hs]
  refine ⟨s / l.length, rfl, ?_⟩
  apply div_nonneg (by linarith)
  exact_mod_cast Nat.zero_le _

theorem jitter_bridge {v m maxJ : ℚ} (hv : 0 ≤ v) (hm : 0 < m)
    (h : jitterGtB (.fin v) (.fin m) maxJ = false) :
    Real.sqrt (v : ℝ) / (m : ℝ) * 100 ≤ (maxJ : ℝ) := by
  have h' : (if v < 0 then false
      else if m = 0 then decide (0 < v)
      else if 0 < m then decide (maxJ < 0 ∨ 0 ≤ maxJ ∧ maxJ ^ 2 * m ^ 2 < 10000 * v)
      else decide (maxJ < 0 ∧ 10000 * v < maxJ ^ 2 * m ^ 2)) = false := h
  rw [if_neg (not_lt.mpr hv), if_neg (ne_of_gt hm), if_pos hm] at h'
  simp only [decide_eq_false_iff_not, not_or, not_and, not_lt] at h'
  obtain ⟨hJ0, hJ2⟩ := h'
  have hJle := hJ2 hJ0
  have hmR : (0 : ℝ) < (m : ℝ) := by exact_mod_cast hm
  have hvR : (0 : ℝ) ≤ (v : ℝ) := by exact_mod_cast hv
  have hJ0R : (0 : ℝ) ≤ (maxJ : ℝ) := by exact_mod_cast hJ0
  have hkey : (10000 : ℝ) * (v : ℝ) ≤ (maxJ : ℝ) ^ 2 * (m : ℝ) ^ 2 := by
    exact_mod_cast hJle
  have hsqrt : Real.sqrt (v : ℝ) ≤ (maxJ : ℝ) * (m : ℝ) / 100 := by
    rw [show (maxJ : ℝ) * (m : ℝ) / 100 = Real.sqrt (((maxJ : ℝ) * (m : ℝ) / 100) ^ 2) from
      (Real.sqrt_sq (by positivity)).symm]
    apply Real.sqrt_le_sqrt
    nlinarith
  rw [div_mul_eq_mul_div, div_le_iff hmR]
  nlinarith [Real.sqrt_nonneg (v : ℝ)]

theorem finNumTs_spec {r : ZRecord} (h : finNumTs r = true) :
    ∀ v, getField r "ts" = some v → ∃ q : ℚ, v = Value.num (.fin q) := by
  intro v hv
  unfold finNumTs at h
  rw [hv] at h
  cases v with
  | num n =>
    cases n with
    | fin q => exact ⟨q, rfl⟩
    | nan => exact absurd h (by simp)
    | posInf => exact absurd h (by simp)
    | negInf => exact absurd h (by simp)
  | str s => exact absurd h (by simp)
  | boolV b => exact absurd h (by simp)
  | nullV => exact absurd h (by simp)
  | arr vs => exact absurd h (by simp)

/-- C6. Every BeaconCandidate returned by
`detectBeaconing(records, minConnections, maxJitterPercent)` (stated here
for inputs whose address and port renderings are free of the `|` key
separator and whose timestamps are finite numbers) corresponds to a
(source IP, destination IP, destination port) triple with at least
`minConnections` timestamped records — so a triple with fewer records never
yields a candidate, regardless of regularity — has a nonzero (indeed
positive) mean inter-arrival interval, and has jitter, the population
standard deviation of the consecutive intervals divided by their mean and
multiplied by 100, at most `maxJitterPercent`. -/
theorem claim_C6 (records : List ZRecord) (minC : Nat) (maxJ : ℚ)
    (H1 : ∀ r ∈ records, '|' ∉ (beaconSrcStr r).toList ∧ '|' ∉ (beaconDstStr r).toList ∧
      '|' ∉ (beaconPortStr r).toList)
    (H2 : ∀ r ∈ records, finNumTs r = true)
    (c : BeaconCandidate) (hc : c ∈ detectBeaconing records minC maxJ) :
    ∃ src dst pstr : String,
      c.srcIp = src ∧ c.dstIp = dst ∧ c.dstPort = parseIntJs 10 pstr.toList ∧
      minC ≤ (tripleStream records src dst pstr).length ∧
      c.connectionCount = (tripleStream records src dst pstr).length ∧
      ∃ m v : ℚ,
        meanJs (diffsOf (sortJs leJs (tripleStream records src dst pstr))) = .fin m ∧
        varJs (diffsOf (sortJs leJs (tripleStream records src dst pstr))) = .fin v ∧
        c.avgIntervalExact = .fin m ∧ c.varianceExact = .fin v ∧
        0 < m ∧ 0 ≤ v ∧
        Real.sqrt (v : ℝ) / (m : ℝ) * 100 ≤ (maxJ : ℝ) := by
  unfold detectBeaconing at hc
  obtain ⟨kt, hmem, hsome⟩ := List.mem_filterMap.mp hc
  obtain ⟨key, tss⟩ := kt
  obtain ⟨r0, hr0, hcol0, hkey0⟩ := beaconPairs_keys_origin records (key, tss) hmem
  obtain ⟨hb1, hb2, hb3⟩ := H1 r0 hr0
  have H2e : ∀ r ∈ records, ∀ v, getField r "ts" = some v → ∃ q : ℚ, v = Value.num (.fin q) :=
    fun r hr => finNumTs_spec (H2 r hr)
  have hfindEq := mem_assocFind_of_nodup (beaconPairs_keys_nodup records) hmem
  have haux := (beaconPairs_aux records [] key).1
  rw [show (records.foldl (fun acc r =>
      if beaconCollected r then pushTs (beaconKey r) (beaconTs r) acc else acc)
      ([] : List (String × List JsNum))) = beaconPairs records from rfl] at haux
  have hts : tss = keyStream records key := by
    rw [hfindEq] at haux
    simpa [assocFind] using haux
  have hkey0' : beaconKey r0 = key := hkey0
  have htrip : keyStream records key =
      tripleStream records (beaconSrcStr r0) (beaconDstStr r0) (beaconPortStr r0) := by
    rw [← hkey0']
    exact keyStream_eq_tripleStream records r0 H1 hb1 hb2 hb3
  have htt : tss = tripleStream records (beaconSrcStr r0) (beaconDstStr r0) (beaconPortStr r0) :=
    hts.trans htrip
  have hfin : ∀ x ∈ tss, ∃ q : ℚ, x = .fin q := by
    intro x hx
    rw [hts] at hx
    obtain ⟨r, hr, hcr, rfl⟩ := mem_keyStream hx
    exact beaconTs_fin H2e hr hcr
  unfold beaconOfGroup at hsome
  by_cases h1 : tss.length < minC
  · rw [if_pos h1] at hsome
    cases hsome
  rw [if_neg h1] at hsome
  by_cases h2 : (diffsOf (sortJs leJs tss)).length = 0
  · rw [if_pos h2] at hsome
    cases hsome
  rw [if_neg h2] at hsome
  by_cases h3 : (meanJs (diffsOf (sortJs leJs tss))).eqb (.fin 0) = true
  · rw [if_pos h3] at hsome
    cases hsome
  rw [if_neg h3] at hsome
  by_cases h4 : jitterGtB (varJs (diffsOf (sortJs leJs tss)))
      (meanJs (diffsOf (sortJs leJs tss))) maxJ = true
  · rw [if_pos h4] at hsome
    cases hsome
  rw [if_neg h4] at hsome
  injection hsome with hceq
  subst hceq
  subst hkey0
  have hsplit := beaconKey_split r0 hb1 hb2 hb3
  have hsorted := sorted_fins tss hfin
  have hdfin := diffsOf_fin_nonneg (sortJs leJs tss)
    (fun x hx => hfin x (mem_sortJs.mp hx)) hsorted
  obtain ⟨m, hm, hm0⟩ := meanJs_fin hdfin
  have hmpos : 0 < m := by
    rw [hm] at h3
    have hne : ¬ m = 0 := by
      intro he
      exact h3 (by simp [JsNum.eqb, he])
    exact lt_of_le_of_ne hm0 (fun he => hne he.symm)
  obtain ⟨v, hv, hv0⟩ := varJs_fin hm (fun x hx => (hdfin x hx).imp fun q hq => hq.1)
  have hjit : Real.sqrt (v : ℝ) / (m : ℝ) * 100 ≤ (maxJ : ℝ) := by
    rw [hv, hm] at h4
    exact jitter_bridge hv0 hmpos (by simpa using h4)
  refine ⟨beaconSrcStr r0, beaconDstStr r0, beaconPortStr r0, ?_, ?_, ?_, ?_, ?_,
    m, v, ?_, ?_, ?_, ?_, hmpos, hv0, hjit⟩
  · show (⟨(splitOnChar '|' (beaconKey r0).toList).getD 0 []⟩ : String) = beaconSrcStr r0
    rw [hsplit]
    exact mk_toList _
  · show (⟨(splitOnChar '|' (beaconKey r0).toList).getD 1 []⟩ : String) = beaconDstStr r0
    rw [hsplit]
    exact mk_toList _
  · show parseIntJs 10 ((splitOnChar '|' (beaconKey r0).toList).getD 2 []) =
      parseIntJs 10 (beaconPortStr r0).toList
    rw [hsplit]
    rfl
  · rw [← htt]
    omega
  · show tss.length = _
    rw [← htt]
  · rw [← htt]
    exact hm
  · rw [← htt]
    exact hv
  · show meanJs (diffsOf (sortJs leJs tss)) = .fin m
    exact hm
  · show varJs (diffsOf (sortJs leJs tss)) = .fin v
    exact hv

set_option maxRecDepth 100000 in
theorem claim_C6_witness :
    (∀ r ∈ [(100 : ℚ), 160, 220, 280].map (fun t =>
        ([("id.orig_h", Value.str "a"), ("id.resp_h", Value.str "b"),
          ("id.resp_p", Value.num (.fin 443)), ("ts", Value.num (.fin t))] : ZRecord)),
      '|' ∉ (beaconSrcStr r).toList ∧ '|' ∉ (beaconDstStr r).toList ∧
      '|' ∉ (beaconPortStr r).toList) ∧
    (∀ r ∈ [(100 : ℚ), 160, 220, 280].map (fun t =>
        ([("id.orig_h", Value.str "a"), ("id.resp_h", Value.str "b"),
          ("id.resp_p", Value.num (.fin 443)), ("ts", Value.num (.fin t))] : ZRecord)),
      finNumTs r = true) ∧
    ({ srcIp := "a", dstIp := "b", dstPort := some 443, connectionCount := 4,
       avgIntervalExact := .fin 60, varianceExact := .fin 0,
       avgBytesExact := .fin 0 } : BeaconCandidate) ∈
      detectBeaconing ([(100 : ℚ), 160, 220, 280].map (fun t =>
        ([("id.orig_h", Value.str "a"), ("id.resp_h", Value.str "b"),
          ("id.resp_p", Value.num (.fin 443)), ("ts", Value.num (.fin t))] : ZRecord))) 3 30 ∧
    (∃ src dst pstr : String,
      ({ srcIp := "a", dstIp := "b", dstPort := some 443, connectionCount := 4,
         avgIntervalExact := .fin 60, varianceExact := .fin 0,
         avgBytesExact := .fin 0 } : BeaconCandidate).srcIp = src ∧
      ({ srcIp := "a", dstIp := "b", dstPort := some 443, connectionCount := 4,
         avgIntervalExact := .fin 60, varianceExact := .fin 0,
         avgBytesExact := .fin 0 } : BeaconCandidate).dstIp = dst ∧
      ({ srcIp := "a", dstIp := "b", dstPort := some 443, connectionCount := 4,
         avgIntervalExact := .fin 60, varianceExact := .fin 0,
         avgBytesExact := .fin 0 } : BeaconCandidate).dstPort = parseIntJs 10 pstr.toList ∧
      3 ≤ (tripleStream ([(100 : ℚ), 160, 220, 280].map (fun t =>
        ([("id.orig_h", Value.str "a"), ("id.resp_h", Value.str "b"),
          ("id.resp_p", Value.num (.fin 443)), ("ts", Value.num (.fin t))] : ZRecord)))
        src dst pstr).length ∧
      ({ srcIp := "a", dstIp := "b", dstPort := some 443, connectionCount := 4,
         avgIntervalExact := .fin 60, varianceExact := .fin 0,
         avgBytesExact := .fin 0 } : BeaconCandidate).connectionCount =
        (tripleStream ([(100 : ℚ), 160, 220, 280].map (fun t =>
          ([("id.orig_h", Value.str "a"), ("id.resp_h", Value.str "b"),
            ("id.resp_p", Value.num (.fin 443)), ("ts", Value.num (.fin t))] : ZRecord)))
          src dst pstr).length ∧
      ∃ m v : ℚ,
        meanJs (diffsOf (sortJs leJs (tripleStream ([(100 : ℚ), 160, 220, 280].map (fun t =>
          ([("id.orig_h", Value.str "a"), ("id.resp_h", Value.str "b"),
            ("id.resp_p", Value.num (.fin 443)), ("ts", Value.num (.fin t))] : ZRecord)))
          src dst pstr))) = .fin m ∧
        varJs (diffsOf (sortJs leJs (tripleStream ([(100 : ℚ), 160, 220, 280].map (fun t =>
          ([("id.orig_h", Value.str "a"), ("id.resp_h", Value.str "b"),
            ("id.resp_p", Value.num (.fin 443)), ("ts", Value.num (.fin t))] : ZRecord)))
          src dst pstr))) = .fin v ∧
        ({ srcIp := "a", dstIp := "b", dstPort := some 443, connectionCount := 4,
           avgIntervalExact := .fin 60, varianceExact := .fin 0,
           avgBytesExact := .fin 0 } : BeaconCandidate).avgIntervalExact = .fin m ∧
        ({ srcIp := "a", dstIp := "b", dstPort := some 443, connectionCount := 4,
           avgIntervalExact := .fin 60, varianceExact := .fin 0,
           avgBytesExact := .fin 0 } : BeaconCandidate).varianceExact = .fin v ∧
        0 < m ∧ 0 ≤ v ∧
        Real.sqrt (v : ℝ) / (m : ℝ) * 100 ≤ ((30 : ℚ) : ℝ)) :=
  ⟨by decide, by decide, by with_unfolding_all decide,
   claim_C6 ([(100 : ℚ), 160, 220, 280].map (fun t =>
        ([("id.orig_h", Value.str "a"), ("id.resp_h", Value.str "b"),
          ("id.resp_p", Value.num (.fin 443)), ("ts", Value.num (.fin t))] : ZRecord))) 3 30
     (by decide) (by decide)
     ({ srcIp := "a", dstIp := "b", dstPort := some 443, connectionCount := 4,
        avgIntervalExact := .fin 60, varianceExact := .fin 0,
        avgBytesExact := .fin 0 } : BeaconCandidate) (by with_unfolding_all decide)⟩

end ZeekMCP
